import Mathlib

/-!
# Component expansion (`templ_components.go`)

A shallow embedding of `Registry.Add` and `Registry.Convert`.

Modelling conventions.

* The tokenizer (`golang.org/x/net/html`) is an external collaborator.  The
  token stream it hands to `Convert` is an explicit input: the list of tokens
  returned by successive `t.Next()` calls before the first `ErrorToken`,
  together with the (non-nil) error `t.Err()` reports at that `ErrorToken`.
* The template engine (`html/template`) is an external collaborator.  A compiled
  template is represented by what `Execute` does with a context: the bytes it
  writes to the destination and the error it returns.  Registered templates are
  non-nil handles.
* Go maps are finite partial functions from keys to values.
* `bytes.Buffer.Write` never returns an error, so the `if err != nil` branches
  after `currentBuffer.Write(t.Raw())` are not represented.
* `currentBuffer` is a pointer, either to `buf` or to the `content` field of an
  element of `componentsToClose`; it is represented by `BufferRef`.
* The field `State.executed` is a ghost log of the `Template.Execute` calls in
  the order they happen; it does not influence the computation.
-/

namespace TemplComponents

/-! ## Go error values -/

/-- Go `error` values that occur: `io.EOF`, errors made by `errors.New` or
`fmt.Errorf` (identified by their text) and `errors.Join` of three errors. -/
inductive GoError where
  | ioEOF
  | errorsNew (text : String)
  | join3 (a b c : GoError)
  deriving DecidableEq, Repr

/-- Go `errors.Is(err, target)`: `err` is `target` or one of the joined errors is. -/
def errorsIs : GoError → GoError → Bool
  | .join3 a b c, target =>
      decide (GoError.join3 a b c = target) || errorsIs a target || errorsIs b target
        || errorsIs c target
  | err, target => decide (err = target)

/-- Go `var ErrTemplateExecution = errors.New("error executing template")`. -/
def ErrTemplateExecution : GoError := .errorsNew "error executing template"

/-! ## Template contexts -/

/-- Values stored in a template context: `template.HTMLAttr(val)`,
`template.HTML(s)` and the nested `map[template.HTMLAttr]interface{}`. -/
inductive Value where
  | HTMLAttr (s : String)
  | HTML (s : String)
  | Map (m : String → Option Value)

/-- Go `map[string]interface{}`. -/
abbrev TemplData := String → Option Value

/-- Go `make(map[string]interface{})`. -/
def TemplData.empty : TemplData := fun _ => none

/-- Go `m[k] = v`. -/
def TemplData.set (m : TemplData) (k : String) (v : Value) : TemplData :=
  fun x => if x = k then some v else m x

/-- Compiled template (`*template.Template`): `Execute data` is the pair of the
bytes `Execute(w, data)` writes to `w` and the error it returns. -/
structure Template where
  Execute : TemplData → String × Option GoError

/-- Go `type Component struct { Name string; Template *template.Template }`. -/
structure Component where
  Name : String
  Template : Template

/-- Go `type Registry struct { components map[string]Component }`. -/
structure Registry where
  components : String → Option Component

/-- Go `func New() *Registry`. -/
def New : Registry := ⟨fun _ => none⟩

/-- Go `func (r *Registry) Add(c Component)`: `r.components[c.Name] = c`. -/
def Registry.Add (r : Registry) (c : Component) : Registry :=
  ⟨fun n => if n = c.Name then some c else r.components n⟩

/-! ## Tokens -/

/-- Token kinds of `html.TokenType` other than `ErrorToken`. -/
inductive TokenType where
  | TextToken
  | StartTagToken
  | EndTagToken
  | SelfClosingTagToken
  | CommentToken
  | DoctypeToken
  deriving DecidableEq, Repr

/-- One token as seen through the tokenizer: its kind, `t.TagName()`, the
attributes returned by successive `t.TagAttr()` calls, and `t.Raw()`. -/
structure Token where
  tt : TokenType
  TagName : String
  Attr : List (String × String)
  Raw : String
  deriving DecidableEq, Repr

/-- The loop `for { key, val, more := t.TagAttr(); templData[key] = HTMLAttr(val);
if !more { break } }`.  With no attribute left `TagAttr` returns `nil, nil, false`. -/
def tagAttrLoop : List (String × String) → TemplData → TemplData
  | [], m => m.set "" (.HTMLAttr "")
  | [kv], m => m.set kv.1 (.HTMLAttr kv.2)
  | kv :: kv2 :: rest, m => tagAttrLoop (kv2 :: rest) (m.set kv.1 (.HTMLAttr kv.2))

/-- Lines 54-63 and 82-91: the attribute entries, read only when `hasAttrs`. -/
def readAttrs (t : Token) : TemplData :=
  if t.Attr.length > 0 then tagAttrLoop t.Attr TemplData.empty else TemplData.empty

/-- Lines 54-68 and 82-96: the attribute entries, then a copy of them stored
under the key `"attributes"`. -/
def buildTemplData (t : Token) : TemplData :=
  let templData := readAttrs t
  let attributes : String → Option Value := fun k => templData k
  templData.set "attributes" (.Map attributes)

/-! ## Conversion state -/

/-- Go `type componentTag struct { tag string; attrs map[string]interface{};
content bytes.Buffer }`. -/
structure componentTag where
  tag : String
  attrs : TemplData
  content : String

/-- Target of the pointer `currentBuffer`: `&buf` or
`&componentsToClose[i].content`. -/
inductive BufferRef where
  | root
  | frame (i : Nat)
  deriving DecidableEq, Repr

/-- Ghost record of one `Template.Execute` call. -/
structure Execution where
  tag : String
  template : Template
  data : TemplData

/-- Local variables of `Convert` (innermost open component last), and the ghost
log of template executions. -/
structure State where
  buf : String
  componentsToClose : List componentTag
  currentBuffer : BufferRef
  executed : List Execution

/-- State on entry to the loop. -/
def State.init : State := ⟨"", [], .root, []⟩

/-- Append `p` to the `content` of the element at index `i`. -/
def writeAt (p : String) : Nat → List componentTag → List componentTag
  | _, [] => []
  | 0, c :: cs => { c with content := c.content ++ p } :: cs
  | i + 1, c :: cs => c :: writeAt p i cs

/-- Go `currentBuffer.Write(p)`. -/
def State.write (st : State) (p : String) : State :=
  match st.currentBuffer with
  | .root => { st with buf := st.buf ++ p }
  | .frame i => { st with componentsToClose := writeAt p i st.componentsToClose }

/-- Go `currentBuffer.Write(w)` together with the ghost logging of `ex`. -/
def State.emit (st : State) (w : String) (ex : List Execution) : State :=
  { st.write w with executed := st.executed ++ ex }

/-- Lines 115-119 and 138-142: the buffer of the last open component, else `&buf`. -/
def activeRef (cs : List componentTag) : BufferRef :=
  if cs.length > 0 then .frame (cs.length - 1) else .root

/-- Result of one loop iteration. -/
inductive Step where
  | next (st : State)
  | fail (st : State) (err : GoError)
  | nilTemplate

/-- `err := tmpl.Execute(currentBuffer, data)` followed by the `if err != nil`
return; `tagName` is the name of the token being processed. -/
def State.execute (st : State) (tagName : String) (tmpl : Template) (data : TemplData) :
    Step :=
  let st1 := st.emit (tmpl.Execute data).1 [⟨tagName, tmpl, data⟩]
  match (tmpl.Execute data).2 with
  | some err =>
      .fail st1 (.join3 ErrTemplateExecution (.errorsNew ("tagname: " ++ tagName)) err)
  | none => .next st1

/-- Lines 138-142, reached when the iteration did not return. -/
def Step.recompute : Step → Step
  | .next st => .next { st with currentBuffer := activeRef st.componentsToClose }
  | s => s

/-- One iteration of the loop for a token that is not `ErrorToken`. -/
def stepToken (r : Registry) (st : State) (t : Token) : Step :=
  Step.recompute <|
    match t.tt with
    | .SelfClosingTagToken =>
        match r.components t.TagName with
        | some comp => st.execute t.TagName comp.Template (buildTemplData t)
        | none => .next (st.write t.Raw)
    | .StartTagToken =>
        match r.components t.TagName with
        | some _ =>
            .next { st with
              componentsToClose := st.componentsToClose ++ [⟨t.TagName, buildTemplData t, ""⟩] }
        | none => .next (st.write t.Raw)
    | .EndTagToken =>
        match st.componentsToClose.getLast?, r.components t.TagName with
        | some comp, some _ =>
            if comp.tag ≠ t.TagName then
              .fail st (.errorsNew "mismatched end tag")
            else
              let popped := st.componentsToClose.dropLast
              let attrs := comp.attrs.set "children" (.HTML comp.content)
              let st1 : State :=
                { st with componentsToClose := popped, currentBuffer := activeRef popped }
              match r.components comp.tag with
              | some c => st1.execute t.TagName c.Template attrs
              | none => .nilTemplate
        | _, _ => .next (st.write t.Raw)
    | _ => .next (st.write t.Raw)

/-- The loop over the tokens that precede the `ErrorToken`. -/
def runTokens (r : Registry) : State → List Token → Step
  | st, [] => .next st
  | st, t :: ts =>
      match stepToken r st t with
      | .next st1 => runTokens r st1 ts
      | s => s

/-- How a call of `Convert` ends: it returns `(st.buf, err)`, or it dereferences
the nil template of a missing registry entry. -/
inductive Outcome where
  | returned (st : State) (err : Option GoError)
  | nilTemplate

/-- Lines 45-50: the `ErrorToken` case, `e` being `t.Err()`. -/
def atErrorToken (e : GoError) : Step → Outcome
  | .next st => if errorsIs e .ioEOF then .returned st none else .returned st (some e)
  | .fail st err => .returned st (some err)
  | .nilTemplate => .nilTemplate

/-- The run of `Convert` with its ghost log, on the token stream `toks` ended by
an `ErrorToken` with error `e`. -/
def ConvertRun (r : Registry) (toks : List Token) (e : GoError) : Outcome :=
  atErrorToken e (runTokens r State.init toks)

/-- What `Convert` returns: `some (output, error)`, or `none` on a nil dereference. -/
def Convert (r : Registry) (toks : List Token) (e : GoError) :
    Option (String × Option GoError) :=
  match ConvertRun r toks e with
  | .returned st err => some (st.buf, err)
  | .nilTemplate => none

/-- The ghost log of template executions of a run, in the order they happen. -/
def executions (r : Registry) (toks : List Token) (e : GoError) : List Execution :=
  match ConvertRun r toks e with
  | .returned st _ => st.executed
  | .nilTemplate => []

/-- Concatenation of the raw bytes of a token list. -/
def rawConcat : List Token → String
  | [] => ""
  | t :: ts => t.Raw ++ rawConcat ts

/-- Invariant of the loop head: `currentBuffer` points at the active buffer. -/
def State.Consistent (st : State) : Prop :=
  st.currentBuffer = activeRef st.componentsToClose

/-! ## Reference expansion of well-nested markup and derived notions -/

/-- Markup that is well nested with respect to component tags: a sequence of
plain tokens, self-closing component tags, and components with their start tag,
inner markup and end tag. -/
inductive Forest where
  | nil
  | raw (t : Token) (rest : Forest)
  | self (t : Token) (rest : Forest)
  | comp (start : Token) (inner : Forest) (close : Token) (rest : Forest)

/-- The token sequence of a forest. -/
def Forest.tokens : Forest → List Token
  | .nil => []
  | .raw t rest => t :: rest.tokens
  | .self t rest => t :: rest.tokens
  | .comp s inner c rest => s :: (inner.tokens ++ c :: rest.tokens)

/-- The forest is well nested for the registry `r`: plain tokens are text,
comments, doctypes or tags with an unregistered name; component tags are
registered, and every component is closed by an end tag of its own name. -/
def Forest.WellNested (r : Registry) : Forest → Prop
  | .nil => True
  | .raw t rest =>
      ((t.tt = .TextToken ∨ t.tt = .CommentToken ∨ t.tt = .DoctypeToken) ∨
        r.components t.TagName = none) ∧ rest.WellNested r
  | .self t rest =>
      t.tt = .SelfClosingTagToken ∧ (r.components t.TagName).isSome ∧ rest.WellNested r
  | .comp s inner c rest =>
      s.tt = .StartTagToken ∧ (r.components s.TagName).isSome ∧ c.tt = .EndTagToken ∧
        c.TagName = s.TagName ∧ inner.WellNested r ∧ rest.WellNested r

/-- Recursive reference expansion: every component is replaced by the rendering
of its template, with `"children"` bound to the expansion of its inner markup.
The result is `none` when a template is missing or an execution fails. -/
def expandRef (r : Registry) : Forest → Option String
  | .nil => some ""
  | .raw t rest => (expandRef r rest).map (t.Raw ++ ·)
  | .self t rest =>
      match r.components t.TagName with
      | some c =>
          match c.Template.Execute (buildTemplData t) with
          | (w, none) => (expandRef r rest).map (w ++ ·)
          | (_, some _) => none
      | none => none
  | .comp s inner _ rest =>
      match r.components s.TagName, expandRef r inner with
      | some c, some kids =>
          match c.Template.Execute ((buildTemplData s).set "children" (.HTML kids)) with
          | (w, none) => (expandRef r rest).map (w ++ ·)
          | (_, some _) => none
      | _, _ => none

/-- The template executions of the reference expansion, in the order the
recursion performs them: those of the inner markup before the component itself. -/
def executionsRef (r : Registry) : Forest → List Execution
  | .nil => []
  | .raw _ rest => executionsRef r rest
  | .self t rest =>
      match r.components t.TagName with
      | some c => ⟨t.TagName, c.Template, buildTemplData t⟩ :: executionsRef r rest
      | none => executionsRef r rest
  | .comp s inner _ rest =>
      match r.components s.TagName, expandRef r inner with
      | some c, some kids =>
          executionsRef r inner ++
            ⟨s.TagName, c.Template, (buildTemplData s).set "children" (.HTML kids)⟩ ::
              executionsRef r rest
      | _, _ => executionsRef r inner ++ executionsRef r rest

/-- The forest of a sequence of plain tokens. -/
def Forest.ofPlain : List Token → Forest
  | [] => .nil
  | t :: ts => .raw t (Forest.ofPlain ts)

instance decidableEqNone {α : Type} : (o : Option α) → Decidable (o = none)
  | none => isTrue rfl
  | some _ => isFalse (fun h => Option.noConfusion h)

instance Forest.decidableWellNested (r : Registry) :
    (F : Forest) → Decidable (F.WellNested r)
  | .nil => isTrue trivial
  | .raw t rest =>
      have := Forest.decidableWellNested r rest
      inferInstanceAs (Decidable
        (((t.tt = .TextToken ∨ t.tt = .CommentToken ∨ t.tt = .DoctypeToken) ∨
          r.components t.TagName = none) ∧ rest.WellNested r))
  | .self t rest =>
      have := Forest.decidableWellNested r rest
      inferInstanceAs (Decidable
        (t.tt = .SelfClosingTagToken ∧ (r.components t.TagName).isSome ∧ rest.WellNested r))
  | .comp s inner c rest =>
      have := Forest.decidableWellNested r rest
      have := Forest.decidableWellNested r inner
      inferInstanceAs (Decidable
        (s.tt = .StartTagToken ∧ (r.components s.TagName).isSome ∧ c.tt = .EndTagToken ∧
          c.TagName = s.TagName ∧ inner.WellNested r ∧ rest.WellNested r))

/-- The state `st` is the loop-head state after some token prefix has been
processed without a return. -/
def Reachable (r : Registry) (st : State) : Prop :=
  ∃ p : List Token, runTokens r State.init p = .next st

/-- Contents of the active buffer as derived from the stack: the buffer of the
innermost open component, or the root buffer when none is open. -/
def activeContent (st : State) : String :=
  match st.componentsToClose.getLast? with
  | some f => f.content
  | none => st.buf

/-- The state carried by a loop result, if any. -/
def Step.state : Step → Option State
  | .next st => some st
  | .fail st _ => some st
  | .nilTemplate => none

/-- Go `templData[string(key)] = template.HTMLAttr(val)` for one attribute. -/
def setAttr (m : TemplData) (kv : String × String) : TemplData :=
  m.set kv.1 (.HTMLAttr kv.2)

/-- The token is a start tag with a registered name: it pushes a frame. -/
def isPush (r : Registry) (t : Token) : Prop :=
  t.tt = .StartTagToken ∧ (r.components t.TagName).isSome

/-- The token is an end tag whose name is registered and equal to the tag of the
innermost open frame of `st`: it pops that frame. -/
def isPop (r : Registry) (st : State) (t : Token) : Prop :=
  t.tt = .EndTagToken ∧ (r.components t.TagName).isSome ∧
    st.componentsToClose.getLast?.map (·.tag) = some t.TagName

instance isPush.decidable (r : Registry) (t : Token) : Decidable (isPush r t) :=
  inferInstanceAs (Decidable (t.tt = .StartTagToken ∧ (r.components t.TagName).isSome))

instance isPop.decidable (r : Registry) (st : State) (t : Token) : Decidable (isPop r st t) :=
  inferInstanceAs (Decidable (t.tt = .EndTagToken ∧ (r.components t.TagName).isSome ∧
    st.componentsToClose.getLast?.map (·.tag) = some t.TagName))

/-- Tag names of the open frames, innermost last. -/
def frameTags (st : State) : List String := st.componentsToClose.map (·.tag)

/-- Tag name and attribute context of the open frames, innermost last. -/
def frameKeys (st : State) : List (String × TemplData) :=
  st.componentsToClose.map (fun f => (f.tag, f.attrs))

/-- Contents of all buffers: the root buffer, then the buffers of the open
frames, innermost last. -/
def buffers (st : State) : List String := st.buf :: st.componentsToClose.map (·.content)

/-- Append `w` to the last string of a list. -/
def appendLast : List String → String → List String
  | [], _ => []
  | [b], w => [b ++ w]
  | b :: b2 :: bs, w => b :: appendLast (b2 :: bs) w

/-- The state after lines 112-119: the innermost frame removed and
`currentBuffer` pointing at the buffer that is active then. -/
def State.popped (st : State) : State :=
  { st with
    componentsToClose := st.componentsToClose.dropLast
    currentBuffer := activeRef st.componentsToClose.dropLast }

/-- Number of start tags with a registered name in a token list. -/
def pushCount (r : Registry) (p : List Token) : Nat := p.countP (fun t => decide (isPush r t))

/-- Number of frames popped while the loop processes `p` from the state `st`. -/
def popCount (r : Registry) : State → List Token → Nat
  | _, [] => 0
  | st, t :: ts =>
      (if isPop r st t then 1 else 0) +
        match stepToken r st t with
        | .next st1 => popCount r st1 ts
        | _ => 0

/-- After every token of `p` processed from `st` more than `n` frames are open. -/
def staysAbove (r : Registry) (n : Nat) : State → List Token → Bool
  | _, [] => true
  | st, t :: ts =>
      match stepToken r st t with
      | .next st1 => decide (n < st1.componentsToClose.length) && staysAbove r n st1 ts
      | _ => true

/-! ## Concrete registries and token streams -/

/-- Template that writes `pre`, the `"children"` markup and `post`; it fails
after writing `pre` when `"children"` is not bound to markup. -/
def echoChildren (pre post : String) : Template :=
  ⟨fun d =>
    match d "children" with
    | some (.HTML s) => (pre ++ s ++ post, none)
    | _ => (pre, some (.errorsNew "children is not markup"))⟩

/-- Template that writes `pre`, the value of the attribute `key` and `post`; it
fails after writing `pre` when `key` is not bound to an attribute value. -/
def echoAttr (key pre post : String) : Template :=
  ⟨fun d =>
    match d key with
    | some (.HTMLAttr s) => (pre ++ s ++ post, none)
    | _ => (pre, some (.errorsNew "missing attribute"))⟩

/-- Template without actions: it writes `text` and succeeds. -/
def staticTemplate (text : String) : Template := ⟨fun _ => (text, none)⟩

/-- Registry of the test "nested components". -/
def nestedRegistry : Registry :=
  (New.Add ⟨"test-component", echoChildren "<div id=\"test-component\">" "</div>"⟩).Add
    ⟨"nested-component", echoChildren "<div id=\"nested-component\">" "</div>"⟩

def spanOpen : Token := ⟨.StartTagToken, "span", [], "<span>"⟩

def helloText : Token := ⟨.TextToken, "", [], "hello"⟩

def spanClose : Token := ⟨.EndTagToken, "span", [], "</span>"⟩

def testOpen : Token := ⟨.StartTagToken, "test-component", [], "<test-component>"⟩

def testClose : Token := ⟨.EndTagToken, "test-component", [], "</test-component>"⟩

def nestedOpen : Token := ⟨.StartTagToken, "nested-component", [], "<nested-component>"⟩

def nestedClose : Token := ⟨.EndTagToken, "nested-component", [], "</nested-component>"⟩

/-- Tokens of `<span>hello</span>`. -/
def spanHello : List Token := [spanOpen, helloText, spanClose]

/-- Markup of the test "nested components":
`<test-component><nested-component><span>hello</span></nested-component></test-component>`. -/
def nestedForest : Forest :=
  .comp testOpen (.comp nestedOpen (Forest.ofPlain spanHello) nestedClose .nil) testClose .nil

/-- Registry of the test "simple self enclosed component". -/
def simpleRegistry : Registry :=
  New.Add ⟨"test-component", staticTemplate "<div id=\"test-component\"><span>a test</span></div>"⟩

/-- Token of `<test-component />`. -/
def testSelf : Token := ⟨.SelfClosingTagToken, "test-component", [], "<test-component />"⟩

/-- Template that writes `written` and then reports an error. -/
def failingTemplate (written : String) : Template :=
  ⟨fun _ => (written, some (.errorsNew "execution failed"))⟩

/-- Registry whose component `test-component` has a template that fails. -/
def failingRegistry : Registry := New.Add ⟨"test-component", failingTemplate "<div>"⟩

/-- Registry of the test "components with children". -/
def childrenRegistry : Registry :=
  New.Add ⟨"test-component", echoChildren "<div id=\"test-component\">" "</div>"⟩

/-- Start tag `<test-component class="a" data-cy="test" class="b">`. -/
def repeatedOpen : Token :=
  ⟨.StartTagToken, "test-component", [("class", "a"), ("data-cy", "test"), ("class", "b")],
    "<test-component class=\"a\" data-cy=\"test\" class=\"b\">"⟩

/-- Self-closing tag `<test-component message="a test" />` of the test "simple
self enclosed component with attributes". -/
def messageSelf : Token :=
  ⟨.SelfClosingTagToken, "test-component", [("message", "a test")],
    "<test-component message=\"a test\" />"⟩

/-- Self-closing tag `<test-component attributes="x" />`. -/
def attributesSelf : Token :=
  ⟨.SelfClosingTagToken, "test-component", [("attributes", "x")],
    "<test-component attributes=\"x\" />"⟩

/-- Self-closing tag `<test-component children="x" />`. -/
def childrenSelf : Token :=
  ⟨.SelfClosingTagToken, "test-component", [("children", "x")],
    "<test-component children=\"x\" />"⟩

/-- Start tag `<test-component children="x">`. -/
def childrenOpen : Token :=
  ⟨.StartTagToken, "test-component", [("children", "x")], "<test-component children=\"x\">"⟩

/-- Registry whose component `test-component` echoes the attribute `key`. -/
def echoRegistry (key : String) : Registry :=
  New.Add ⟨"test-component", echoAttr key "<p>" "</p>"⟩

/-- Second registration under the name `test-component`, with another template. -/
def laterComponent : Component := ⟨"test-component", staticTemplate "<p>later</p>"⟩

/-- Text token `a`. -/
def aText : Token := ⟨.TextToken, "", [], "a"⟩

/-! ## Basic facts about buffers -/

theorem writeAt_length (p : String) (i : Nat) (cs : List componentTag) :
    (writeAt p i cs).length = cs.length := by
  induction cs generalizing i with
  | nil => simp [writeAt]
  | cons c cs ih => cases i <;> simp [writeAt, ih]

theorem writeAt_concat (p : String) (cs : List componentTag) (c : componentTag) :
    writeAt p cs.length (cs ++ [c]) = cs ++ [{ c with content := c.content ++ p }] := by
  induction cs with
  | nil => simp [writeAt]
  | cons d ds ih => simp [writeAt, ih]

theorem activeRef_nil : activeRef [] = .root := rfl

theorem activeRef_concat (cs : List componentTag) (c : componentTag) :
    activeRef (cs ++ [c]) = .frame cs.length := by
  simp [activeRef]

theorem write_stack_length (st : State) (p : String) :
    (st.write p).componentsToClose.length = st.componentsToClose.length := by
  unfold State.write
  cases st.currentBuffer <;> simp [writeAt_length]

theorem write_currentBuffer (st : State) (p : String) :
    (st.write p).currentBuffer = st.currentBuffer := by
  unfold State.write
  cases st.currentBuffer <;> rfl

theorem write_executed (st : State) (p : String) :
    (st.write p).executed = st.executed := by
  unfold State.write
  cases st.currentBuffer <;> rfl

theorem activeRef_congr {cs ds : List componentTag} (h : cs.length = ds.length) :
    activeRef cs = activeRef ds := by
  simp [activeRef, h]

theorem write_consistent {st : State} (h : st.Consistent) (p : String) :
    (st.write p).Consistent := by
  unfold State.Consistent at *
  rw [write_currentBuffer, h]
  exact activeRef_congr (write_stack_length st p).symm

theorem recompute_next_of_consistent {st : State} (h : st.Consistent) :
    Step.recompute (.next st) = .next st := by
  unfold State.Consistent at h
  simp only [Step.recompute]
  rw [← h]

/-- Writing to the root buffer when no component is open. -/
theorem write_of_nil {st : State} (h : st.Consistent) (hs : st.componentsToClose = [])
    (p : String) : st.write p = { st with buf := st.buf ++ p } := by
  unfold State.Consistent at h
  rw [hs, activeRef_nil] at h
  unfold State.write
  rw [h]

/-- Writing to the buffer of the innermost open component. -/
theorem write_of_concat {st : State} (h : st.Consistent) {cs : List componentTag}
    {c : componentTag} (hs : st.componentsToClose = cs ++ [c]) (p : String) :
    st.write p =
      { st with componentsToClose := cs ++ [{ c with content := c.content ++ p }] } := by
  unfold State.Consistent at h
  rw [hs, activeRef_concat] at h
  unfold State.write
  rw [h]
  simp only [hs, writeAt_concat]

theorem init_consistent : State.init.Consistent := rfl


theorem writeAt_writeAt (a b : String) (i : Nat) (cs : List componentTag) :
    writeAt b i (writeAt a i cs) = writeAt (a ++ b) i cs := by
  induction cs generalizing i with
  | nil => simp [writeAt]
  | cons c cs ih => cases i <;> simp [writeAt, ih, String.append_assoc]

theorem writeAt_empty (i : Nat) (cs : List componentTag) : writeAt "" i cs = cs := by
  induction cs generalizing i with
  | nil => simp [writeAt]
  | cons c cs ih => cases i <;> simp [writeAt, ih, String.append_empty]

theorem write_write (st : State) (a b : String) :
    (st.write a).write b = st.write (a ++ b) := by
  obtain ⟨buf, cs, cur, ex⟩ := st
  cases cur <;> simp [State.write, writeAt_writeAt, String.append_assoc]

theorem write_empty (st : State) : st.write "" = st := by
  obtain ⟨buf, cs, cur, ex⟩ := st
  cases cur <;> simp [State.write, writeAt_empty, String.append_empty]

theorem emit_emit (st : State) (a b : String) (x y : List Execution) :
    (st.emit a x).emit b y = st.emit (a ++ b) (x ++ y) := by
  obtain ⟨buf, cs, cur, ex⟩ := st
  cases cur <;> simp [State.emit, State.write, writeAt_writeAt, String.append_assoc]

theorem emit_nil (st : State) : st.emit "" [] = st := by
  obtain ⟨buf, cs, cur, ex⟩ := st
  cases cur <;> simp [State.emit, State.write, writeAt_empty, String.append_empty]

theorem emit_write (st : State) (w : String) : st.emit w [] = st.write w := by
  obtain ⟨buf, cs, cur, ex⟩ := st
  cases cur <;> simp [State.emit, State.write]

theorem emit_consistent {st : State} (h : st.Consistent) (w : String) (ex : List Execution) :
    (st.emit w ex).Consistent := write_consistent h w

theorem emit_executed (st : State) (w : String) (ex : List Execution) :
    (st.emit w ex).executed = st.executed ++ ex := rfl

theorem emit_stack_length (st : State) (w : String) (ex : List Execution) :
    (st.emit w ex).componentsToClose.length = st.componentsToClose.length :=
  write_stack_length st w

/-! ## One loop iteration, case by case -/

/-- Text, comment and doctype tokens and tags with an unregistered name are
written raw. -/
theorem stepToken_raw (r : Registry) {st : State} (hc : st.Consistent) (t : Token)
    (h : (t.tt = .TextToken ∨ t.tt = .CommentToken ∨ t.tt = .DoctypeToken) ∨
      r.components t.TagName = none) :
    stepToken r st t = .next (st.write t.Raw) := by
  have hr := recompute_next_of_consistent (write_consistent hc t.Raw)
  unfold stepToken
  rcases h with h | h
  · rcases h with h | h | h <;> simp only [h] <;> exact hr
  · cases htt : t.tt <;> simp only [h] <;> try exact hr
    cases st.componentsToClose.getLast? <;> exact hr

/-- An end tag met while no component is open is written raw. -/
theorem stepToken_end_nil (r : Registry) {st : State} (hc : st.Consistent) (t : Token)
    (htt : t.tt = .EndTagToken) (hs : st.componentsToClose = []) :
    stepToken r st t = .next (st.write t.Raw) := by
  have hr := recompute_next_of_consistent (write_consistent hc t.Raw)
  unfold stepToken
  simp only [htt, hs, List.getLast?_nil]
  exact hr

theorem execute_recompute (st : State) (hc : st.Consistent) (n : String) (tmpl : Template)
    (data : TemplData) :
    Step.recompute (st.execute n tmpl data) = st.execute n tmpl data := by
  unfold State.execute
  cases h : (tmpl.Execute data).2 with
  | none =>
      have : (st.emit (tmpl.Execute data).1 [⟨n, tmpl, data⟩]).Consistent :=
        emit_consistent hc _ _
      exact recompute_next_of_consistent this
  | some e => rfl

/-- A registered self-closing tag executes its template into the active buffer. -/
theorem stepToken_self (r : Registry) {st : State} (hc : st.Consistent) (t : Token)
    (htt : t.tt = .SelfClosingTagToken) {c : Component} (hreg : r.components t.TagName = some c) :
    stepToken r st t = st.execute t.TagName c.Template (buildTemplData t) := by
  unfold stepToken
  simp only [htt, hreg]
  exact execute_recompute st hc _ _ _

/-- A registered start tag pushes a frame with an empty buffer. -/
theorem stepToken_start (r : Registry) (st : State) (t : Token)
    (htt : t.tt = .StartTagToken) {c : Component} (hreg : r.components t.TagName = some c) :
    stepToken r st t =
      .next { st with
        componentsToClose := st.componentsToClose ++ [⟨t.TagName, buildTemplData t, ""⟩]
        currentBuffer := .frame st.componentsToClose.length } := by
  unfold stepToken
  simp only [htt, hreg, Step.recompute, activeRef_concat]

/-- A registered end tag whose name is that of the innermost open component pops
it and executes its template into the buffer that is active after the pop. -/
theorem stepToken_end_match (r : Registry) (st : State) (t : Token)
    (htt : t.tt = .EndTagToken) {c : Component} (hreg : r.components t.TagName = some c)
    {cs : List componentTag} {f : componentTag} (hs : st.componentsToClose = cs ++ [f])
    (htag : f.tag = t.TagName) :
    stepToken r st t =
      State.execute { st with componentsToClose := cs, currentBuffer := activeRef cs }
        t.TagName c.Template (f.attrs.set "children" (.HTML f.content)) := by
  unfold stepToken
  simp only [htt, hreg, hs, List.getLast?_concat, htag, ne_eq, not_true_eq_false, if_false,
    List.dropLast_concat]
  exact execute_recompute _ (by rfl) _ _ _

/-- A registered end tag whose name differs from that of the innermost open
component stops the conversion. -/
theorem stepToken_end_mismatch (r : Registry) (st : State) (t : Token)
    (htt : t.tt = .EndTagToken) {c : Component} (hreg : r.components t.TagName = some c)
    {cs : List componentTag} {f : componentTag} (hs : st.componentsToClose = cs ++ [f])
    (htag : f.tag ≠ t.TagName) :
    stepToken r st t = .fail st (.errorsNew "mismatched end tag") := by
  unfold stepToken
  simp only [htt, hreg, hs, List.getLast?_concat, ne_eq, htag, not_false_eq_true, if_true]
  rfl

theorem runTokens_append (r : Registry) (st : State) (p q : List Token) :
    runTokens r st (p ++ q) =
      match runTokens r st p with
      | .next st1 => runTokens r st1 q
      | s => s := by
  induction p generalizing st with
  | nil => rfl
  | cons t ts ih =>
      simp only [List.cons_append, runTokens]
      cases h : stepToken r st t with
      | next st1 => exact ih st1
      | fail st1 err => rfl
      | nilTemplate => rfl

/-! ## Pass-through -/

theorem runTokens_passthrough (r : Registry) (toks : List Token)
    (h : ∀ t ∈ toks, (t.tt = .StartTagToken ∨ t.tt = .EndTagToken ∨
      t.tt = .SelfClosingTagToken) → r.components t.TagName = none)
    (st : State) (hc : st.Consistent) :
    runTokens r st toks = .next (st.write (rawConcat toks)) := by
  induction toks generalizing st with
  | nil => simp [runTokens, rawConcat, write_empty]
  | cons t ts ih =>
      have ht : (t.tt = .TextToken ∨ t.tt = .CommentToken ∨ t.tt = .DoctypeToken) ∨
          r.components t.TagName = none := by
        have h1 := h t (List.mem_cons_self _ _)
        cases htt : t.tt <;> simp_all
      simp only [runTokens, stepToken_raw r hc t ht, rawConcat]
      rw [ih (fun u hu => h u (List.mem_cons_of_mem _ hu)) _ (write_consistent hc _),
        write_write]

/-- C1 (pass-through): when the token stream ends in normal end-of-input and no
start, end or self-closing tag has a registered name, `Convert` returns a nil
error and the concatenation, in order, of the raw bytes of all tokens. -/
theorem convert_passthrough (r : Registry) (toks : List Token) (e : GoError)
    (he : errorsIs e .ioEOF = true)
    (h : ∀ t ∈ toks, (t.tt = .StartTagToken ∨ t.tt = .EndTagToken ∨
      t.tt = .SelfClosingTagToken) → r.components t.TagName = none) :
    Convert r toks e = some (rawConcat toks, none) := by
  unfold Convert ConvertRun
  rw [runTokens_passthrough r toks h _ init_consistent]
  simp [atErrorToken, he, State.init, State.write, String.empty_append]
theorem convert_passthrough_witness :
    Convert nestedRegistry spanHello .ioEOF = some ("<span>hello</span>", none) :=
  convert_passthrough nestedRegistry spanHello .ioEOF (by decide) (by decide)

/-! ## Nested expansion -/

theorem option_map_eq_some_append {o : Option String} {w out : String}
    (h : o.map (w ++ ·) = some out) : ∃ rest, o = some rest ∧ out = w ++ rest := by
  cases o with
  | none => simp at h
  | some x => exact ⟨x, rfl, by simpa using h.symm⟩

/-- Writing into a frame that has just been pushed on a state. -/
theorem emit_pushed (st : State) (f : componentTag) (w : String) (ex : List Execution) :
    State.emit ⟨st.buf, st.componentsToClose ++ [f], .frame st.componentsToClose.length,
        st.executed⟩ w ex =
      ⟨st.buf, st.componentsToClose ++ [{ f with content := f.content ++ w }],
        .frame st.componentsToClose.length, st.executed ++ ex⟩ := by
  simp [State.emit, State.write, writeAt_concat]

/-- Closing the innermost frame of a state reached from the consistent state
`st` by a push followed by writes into the pushed frame. -/
theorem stepToken_close (r : Registry) {st : State} (hc : st.Consistent) (f : componentTag)
    (ex : List Execution) (cl : Token) (hct : cl.tt = .EndTagToken) {c : Component}
    (hreg : r.components cl.TagName = some c) (htag : f.tag = cl.TagName) :
    stepToken r ⟨st.buf, st.componentsToClose ++ [f], .frame st.componentsToClose.length,
        st.executed ++ ex⟩ cl =
      (st.emit "" ex).execute cl.TagName c.Template (f.attrs.set "children" (.HTML f.content)) := by
  rw [stepToken_end_match r _ cl hct hreg rfl htag]
  congr 1
  have h1 : st.emit "" ex = { st with executed := st.executed ++ ex } := by
    simp [State.emit, write_empty]
  rw [h1]
  unfold State.Consistent at hc
  simp [hc]

/-- The stack-based loop, run over the tokens of well-nested markup, appends the
reference expansion to the active buffer and performs the reference executions. -/
theorem runTokens_forest (r : Registry) (F : Forest) :
    ∀ (st : State) (out : String), F.WellNested r → expandRef r F = some out →
      st.Consistent →
      runTokens r st F.tokens = .next (st.emit out (executionsRef r F)) := by
  induction F with
  | nil =>
      intro st out _ he _
      simp only [expandRef, Option.some.injEq] at he
      subst he
      simp [Forest.tokens, runTokens, executionsRef, emit_nil]
  | raw t rest ih =>
      intro st out hw he hc
      obtain ⟨ht, hrest⟩ := hw
      obtain ⟨o2, ho2, rfl⟩ := option_map_eq_some_append he
      simp only [Forest.tokens, runTokens, stepToken_raw r hc t ht, executionsRef]
      rw [ih _ _ hrest ho2 (write_consistent hc _), ← emit_write, emit_emit]
      rfl
  | self t rest ih =>
      intro st out hw he hc
      obtain ⟨htt, hreg, hrest⟩ := hw
      obtain ⟨c, hc1⟩ := Option.isSome_iff_exists.mp hreg
      simp only [expandRef, hc1] at he
      cases hx : c.Template.Execute (buildTemplData t) with
      | mk w err =>
          cases err with
          | some e => simp [hx] at he
          | none =>
              simp only [hx] at he
              obtain ⟨o2, ho2, rfl⟩ := option_map_eq_some_append he
              simp only [Forest.tokens, runTokens, stepToken_self r hc t htt hc1,
                State.execute, hx, executionsRef, hc1]
              rw [ih _ _ hrest ho2 (emit_consistent hc _ _), emit_emit]
              rfl
  | comp s inner cl rest ihi ihr =>
      intro st out hw he hc
      obtain ⟨hst, hreg, hct, hname, hinner, hrest⟩ := hw
      obtain ⟨c, hc1⟩ := Option.isSome_iff_exists.mp hreg
      simp only [expandRef, hc1] at he
      cases hk : expandRef r inner with
      | none => simp [hk] at he
      | some kids =>
          simp only [hk] at he
          cases hx : c.Template.Execute
              ((buildTemplData s).set "children" (.HTML kids)) with
          | mk w err =>
              cases err with
              | some e => simp [hx] at he
              | none =>
                  simp only [hx] at he
                  obtain ⟨o2, ho2, rfl⟩ := option_map_eq_some_append he
                  have hpush : State.Consistent
                      ⟨st.buf, st.componentsToClose ++ [⟨s.TagName, buildTemplData s, ""⟩],
                        .frame st.componentsToClose.length, st.executed⟩ := by
                    simp [State.Consistent, activeRef_concat]
                  have hin := ihi _ kids hinner hk hpush
                  rw [emit_pushed] at hin
                  have hreg2 : r.components cl.TagName = some c := by rw [hname]; exact hc1
                  simp only [Forest.tokens, runTokens, stepToken_start r st s hst hc1]
                  rw [runTokens_append, hin]
                  simp only [runTokens]
                  rw [stepToken_close r hc _ _ cl hct hreg2 hname.symm]
                  simp only [String.empty_append, State.execute, hx]
                  rw [ihr _ _ hrest ho2 (emit_consistent (emit_consistent hc _ _) _ _),
                    emit_emit, emit_emit]
                  simp only [executionsRef, hc1, hk, String.empty_append, hname,
                    List.append_assoc, List.singleton_append]
theorem ofPlain_tokens (X : List Token) : (Forest.ofPlain X).tokens = X := by
  induction X with
  | nil => rfl
  | cons t ts ih => simp [Forest.ofPlain, Forest.tokens, ih]

theorem ofPlain_wellNested (r : Registry) (X : List Token)
    (h : ∀ t ∈ X, (t.tt = .StartTagToken ∨ t.tt = .EndTagToken ∨
      t.tt = .SelfClosingTagToken) → r.components t.TagName = none) :
    (Forest.ofPlain X).WellNested r := by
  induction X with
  | nil => trivial
  | cons t ts ih =>
      refine ⟨?_, ih (fun u hu => h u (List.mem_cons_of_mem _ hu))⟩
      have h1 := h t (List.mem_cons_self _ _)
      cases htt : t.tt <;> simp_all

theorem ofPlain_expandRef (r : Registry) (X : List Token) :
    expandRef r (Forest.ofPlain X) = some (rawConcat X) := by
  induction X with
  | nil => rfl
  | cons t ts ih => simp [Forest.ofPlain, expandRef, ih, rawConcat]

theorem ofPlain_executionsRef (r : Registry) (X : List Token) :
    executionsRef r (Forest.ofPlain X) = [] := by
  induction X with
  | nil => rfl
  | cons t ts ih => simp [Forest.ofPlain, executionsRef, ih]

theorem convertRun_forest (r : Registry) (e : GoError) (he : errorsIs e .ioEOF = true)
    (F : Forest) (out : String) (hw : F.WellNested r) (hx : expandRef r F = some out) :
    ConvertRun r F.tokens e = .returned (State.init.emit out (executionsRef r F)) none := by
  unfold ConvertRun
  rw [runTokens_forest r F _ out hw hx init_consistent]
  simp [atErrorToken, he]

/-- C2 (nested expansion equals recursive expansion): on every token stream that
is well nested with respect to registered component tags and on which every
template execution succeeds, the stack-based `Convert` returns the output of the
recursive reference expansion with a nil error, and executes the templates in
the order of the recursion.  In particular for registered outer and inner
components around plain content `X`, the output is outer's template rendered with
`"children"` bound to inner's rendering, itself rendered with `"children"` bound
to the raw bytes of `X`, and inner's template is executed before outer's. -/
theorem convert_eq_expandRef (r : Registry) (e : GoError) (he : errorsIs e .ioEOF = true) :
    (∀ (F : Forest) (out : String), F.WellNested r → expandRef r F = some out →
      Convert r F.tokens e = some (out, none) ∧
        executions r F.tokens e = executionsRef r F) ∧
    (∀ (outerOpen innerOpen innerClose outerClose : Token) (X : List Token)
      (outer inner : Component) (wi wo : String),
      outerOpen.tt = .StartTagToken → r.components outerOpen.TagName = some outer →
      outerClose.tt = .EndTagToken → outerClose.TagName = outerOpen.TagName →
      innerOpen.tt = .StartTagToken → r.components innerOpen.TagName = some inner →
      innerClose.tt = .EndTagToken → innerClose.TagName = innerOpen.TagName →
      (∀ t ∈ X, (t.tt = .StartTagToken ∨ t.tt = .EndTagToken ∨
        t.tt = .SelfClosingTagToken) → r.components t.TagName = none) →
      inner.Template.Execute
        ((buildTemplData innerOpen).set "children" (.HTML (rawConcat X))) = (wi, none) →
      outer.Template.Execute
        ((buildTemplData outerOpen).set "children" (.HTML wi)) = (wo, none) →
      Convert r (outerOpen :: innerOpen :: (X ++ [innerClose, outerClose])) e =
          some (wo, none) ∧
        executions r (outerOpen :: innerOpen :: (X ++ [innerClose, outerClose])) e =
          [⟨innerOpen.TagName, inner.Template,
              (buildTemplData innerOpen).set "children" (.HTML (rawConcat X))⟩,
            ⟨outerOpen.TagName, outer.Template,
              (buildTemplData outerOpen).set "children" (.HTML wi)⟩]) := by
  have gen : ∀ (F : Forest) (out : String), F.WellNested r → expandRef r F = some out →
      Convert r F.tokens e = some (out, none) ∧
        executions r F.tokens e = executionsRef r F := by
    intro F out hw hx
    have h := convertRun_forest r e he F out hw hx
    constructor
    · simp [Convert, h, State.emit, State.init, State.write]
    · simp [executions, h, State.emit, State.init]
  refine ⟨gen, ?_⟩
  intro oo io ic oc X outer inner wi wo hoo hro hoc hno hio hri hic hni hX hwi hwo
  have hF := gen (.comp oo (.comp io (Forest.ofPlain X) ic .nil) oc .nil) wo
    ⟨hoo, by simp [hro], hoc, hno,
      ⟨hio, by simp [hri], hic, hni, ofPlain_wellNested r X hX, trivial⟩, trivial⟩
    (by simp [expandRef, hro, hri, ofPlain_expandRef, hwi, hwo])
  simpa [Forest.tokens, ofPlain_tokens, executionsRef, hro, hri, ofPlain_expandRef,
    ofPlain_executionsRef, expandRef, hwi] using hF

theorem convert_eq_expandRef_witness :
    Convert nestedRegistry nestedForest.tokens .ioEOF =
        some ("<div id=\"test-component\"><div id=\"nested-component\"><span>hello</span></div></div>",
          none) ∧
      executions nestedRegistry nestedForest.tokens .ioEOF =
        executionsRef nestedRegistry nestedForest :=
  (convert_eq_expandRef nestedRegistry .ioEOF (by decide)).1 nestedForest _
    (by decide) (by decide)
/-! ## Reachable states -/

theorem stepToken_consistent (r : Registry) (st st1 : State) (t : Token)
    (h : stepToken r st t = .next st1) : st1.Consistent := by
  unfold stepToken at h
  revert h
  generalize (match t.tt with
    | .SelfClosingTagToken => _
    | .StartTagToken => _
    | .EndTagToken => _
    | _ => _ : Step) = s
  cases s with
  | next s1 =>
      intro h
      simp only [Step.recompute, Step.next.injEq] at h
      subst h
      rfl
  | fail s1 err => intro h; simp [Step.recompute] at h
  | nilTemplate => intro h; simp [Step.recompute] at h

theorem runTokens_consistent (r : Registry) (p : List Token) :
    ∀ (st st1 : State), st.Consistent → runTokens r st p = .next st1 → st1.Consistent := by
  induction p with
  | nil =>
      intro st st1 hc h
      simp only [runTokens, Step.next.injEq] at h
      exact h ▸ hc
  | cons t ts ih =>
      intro st st1 hc h
      simp only [runTokens] at h
      cases hs : stepToken r st t with
      | next s1 =>
          rw [hs] at h
          exact ih s1 st1 (stepToken_consistent r st s1 t hs) h
      | fail s1 err => rw [hs] at h; simp at h
      | nilTemplate => rw [hs] at h; simp at h

theorem reachable_consistent {r : Registry} {st : State} (h : Reachable r st) :
    st.Consistent := by
  obtain ⟨p, hp⟩ := h
  exact runTokens_consistent r p _ _ init_consistent hp

theorem getLast?_eq_some_concat {α : Type} {l : List α} {a : α} (h : l.getLast? = some a) :
    ∃ l1, l = l1 ++ [a] := by
  rcases List.eq_nil_or_concat l with hl | ⟨l1, b, hl⟩
  · subst hl; simp at h
  · subst hl
    simp only [List.concat_eq_append, List.getLast?_concat, Option.some.injEq] at h
    exact ⟨l1, by simp [h]⟩

theorem activeContent_emit {st : State} (hc : st.Consistent) (w : String)
    (ex : List Execution) : activeContent (st.emit w ex) = activeContent st ++ w := by
  rcases List.eq_nil_or_concat st.componentsToClose with hl | ⟨cs, f, hl⟩
  · simp [State.emit, write_of_nil hc hl, activeContent, hl]
  · rw [List.concat_eq_append] at hl
    simp [State.emit, write_of_concat hc hl, activeContent, hl]

theorem writeAt_map_tag (p : String) (i : Nat) (cs : List componentTag) :
    (writeAt p i cs).map (·.tag) = cs.map (·.tag) := by
  induction cs generalizing i with
  | nil => simp [writeAt]
  | cons c cs ih => cases i <;> simp [writeAt, ih]

theorem emit_map_tag (st : State) (w : String) (ex : List Execution) :
    (st.emit w ex).componentsToClose.map (·.tag) = st.componentsToClose.map (·.tag) := by
  obtain ⟨buf, cs, cur, ex0⟩ := st
  cases cur <;> simp [State.emit, State.write, writeAt_map_tag]
/-! ## Self-closing component tags -/

/-- C3 (self-closing expansion, amended): for a registered component `c` and a
self-closing tag token named `c`, processing the token in any reachable state
executes the template of `c` exactly once, appends what it wrote to the active
buffer (and nothing else, in particular not the raw bytes of the tag) and leaves
the frames on the stack in place; the loop continues when the execution
succeeds and returns the wrapped `ErrTemplateExecution` error when it fails.
Hence `Convert` on that single token followed by end-of-input returns exactly
what the template wrote for the context built from the attributes of the tag,
with a nil error when the execution succeeds and the wrapped error otherwise. -/
theorem selfClosing_expansion (r : Registry) (c : Component) (t : Token)
    (htt : t.tt = .SelfClosingTagToken) (hreg : r.components t.TagName = some c) :
    (∀ st : State, Reachable r st → ∃ st1 : State,
      ((c.Template.Execute (buildTemplData t)).2 = none ∧ stepToken r st t = .next st1 ∨
        ∃ cause, (c.Template.Execute (buildTemplData t)).2 = some cause ∧
          stepToken r st t = .fail st1
            (.join3 ErrTemplateExecution (.errorsNew ("tagname: " ++ t.TagName)) cause)) ∧
      st1.executed = st.executed ++ [⟨t.TagName, c.Template, buildTemplData t⟩] ∧
      activeContent st1 = activeContent st ++ (c.Template.Execute (buildTemplData t)).1 ∧
      st1.componentsToClose.map (·.tag) = st.componentsToClose.map (·.tag)) ∧
    (∀ e : GoError, errorsIs e .ioEOF = true →
      Convert r [t] e =
        some ((c.Template.Execute (buildTemplData t)).1,
          (c.Template.Execute (buildTemplData t)).2.map
            (GoError.join3 ErrTemplateExecution (.errorsNew ("tagname: " ++ t.TagName))))) := by
  constructor
  · intro st hst
    have hc := reachable_consistent hst
    refine ⟨st.emit (c.Template.Execute (buildTemplData t)).1
      [⟨t.TagName, c.Template, buildTemplData t⟩], ?_, rfl, activeContent_emit hc _ _,
      emit_map_tag _ _ _⟩
    rw [stepToken_self r hc t htt hreg]
    unfold State.execute
    cases h : (c.Template.Execute (buildTemplData t)).2 with
    | none => exact Or.inl ⟨rfl, rfl⟩
    | some cause => exact Or.inr ⟨cause, rfl, rfl⟩
  · intro e he
    unfold Convert ConvertRun
    simp only [runTokens, stepToken_self r init_consistent t htt hreg, State.execute]
    cases h : (c.Template.Execute (buildTemplData t)).2 with
    | none =>
        simp [runTokens, atErrorToken, he, State.emit, State.init, State.write]
    | some cause =>
        simp [atErrorToken, State.emit, State.init, State.write]

theorem selfClosing_expansion_witness :
    Convert simpleRegistry [testSelf] .ioEOF =
      some ("<div id=\"test-component\"><span>a test</span></div>", none) :=
  (selfClosing_expansion simpleRegistry
    ⟨"test-component", staticTemplate "<div id=\"test-component\"><span>a test</span></div>"⟩
    testSelf rfl rfl).2 .ioEOF (by decide)

/-- C3 (as stated) fails when the template of the component fails: `Convert` on
the single self-closing tag returns the bytes written before the failure
together with a non-nil error. -/
theorem selfClosing_expansion_counterexample :
    Convert failingRegistry [testSelf] .ioEOF =
        some ("<div>", some (.join3 ErrTemplateExecution
          (.errorsNew "tagname: test-component") (.errorsNew "execution failed"))) ∧
      Convert failingRegistry [testSelf] .ioEOF ≠
        some (((failingTemplate "<div>").Execute (buildTemplData testSelf)).1, none) := by
  decide
/-! ## Children capture -/

theorem runTokens_singleton (r : Registry) (st : State) (t : Token) :
    runTokens r st [t] = stepToken r st t := by
  simp only [runTokens]
  cases stepToken r st t <;> rfl

theorem execute_state (st : State) (n : String) (tmpl : Template) (data : TemplData) :
    (st.execute n tmpl data).state =
      some (st.emit (tmpl.Execute data).1 [⟨n, tmpl, data⟩]) := by
  unfold State.execute
  cases (tmpl.Execute data).2 <;> rfl

/-- Pop of the innermost frame by its matching end tag. -/
theorem stepToken_pop (r : Registry) {st : State} {f : componentTag}
    (hf : st.componentsToClose.getLast? = some f) (t : Token) {c : Component}
    (htt : t.tt = .EndTagToken) (hreg : r.components t.TagName = some c)
    (htag : f.tag = t.TagName) :
    stepToken r st t =
      State.execute
        { st with
          componentsToClose := st.componentsToClose.dropLast
          currentBuffer := activeRef st.componentsToClose.dropLast }
        t.TagName c.Template (f.attrs.set "children" (.HTML f.content)) := by
  obtain ⟨cs, hcs⟩ := getLast?_eq_some_concat hf
  rw [stepToken_end_match r st t htt hreg hcs htag, hcs, List.dropLast_concat]

/-- A component tag pair around well-nested inner markup, run from a
consistent state. -/
theorem runTokens_pair (r : Registry) {st : State} (hc : st.Consistent) (s cl : Token)
    {c : Component} (inner : Forest) (kids : String) (hs : s.tt = .StartTagToken)
    (hreg : r.components s.TagName = some c) (hcl : cl.tt = .EndTagToken)
    (hname : cl.TagName = s.TagName) (hw : inner.WellNested r)
    (hk : expandRef r inner = some kids) :
    runTokens r st (s :: (inner.tokens ++ [cl])) =
      (st.emit "" (executionsRef r inner)).execute s.TagName c.Template
        ((buildTemplData s).set "children" (.HTML kids)) := by
  have hpush : State.Consistent
      ⟨st.buf, st.componentsToClose ++ [⟨s.TagName, buildTemplData s, ""⟩],
        .frame st.componentsToClose.length, st.executed⟩ := by
    simp [State.Consistent, activeRef_concat]
  have hin := runTokens_forest r inner _ kids hw hk hpush
  rw [emit_pushed] at hin
  have hreg2 : r.components cl.TagName = some c := by rw [hname]; exact hreg
  simp only [runTokens, stepToken_start r st s hs hreg]
  rw [runTokens_append, hin]
  simp only []
  rw [runTokens_singleton, stepToken_close r hc _ _ cl hcl hreg2 hname.symm]
  simp only [String.empty_append, hname]

/-- C4 (children capture): whenever the innermost frame of a reachable state is
popped by its matching end tag, the one template execution that results receives
the attribute context of the frame with `"children"` bound to exactly the
contents of the buffer of the frame; for a component around well-nested inner
markup these contents are the expansion of the inner markup (raw bytes of plain
tokens and renderings of nested components, in order); when the start tag is
immediately followed by its end tag, `"children"` is present and bound to the
empty string. -/
theorem children_capture (r : Registry) :
    (∀ (st : State) (f : componentTag) (t : Token) (c : Component), Reachable r st →
      st.componentsToClose.getLast? = some f → t.tt = .EndTagToken →
      r.components t.TagName = some c → f.tag = t.TagName →
      (stepToken r st t).state.map (·.executed) =
          some (st.executed ++
            [⟨f.tag, c.Template, f.attrs.set "children" (.HTML f.content)⟩]) ∧
        (f.attrs.set "children" (.HTML f.content)) "children" = some (.HTML f.content)) ∧
    (∀ (st : State) (s cl : Token) (c : Component) (inner : Forest) (kids : String),
      Reachable r st → s.tt = .StartTagToken → r.components s.TagName = some c →
      cl.tt = .EndTagToken → cl.TagName = s.TagName → inner.WellNested r →
      expandRef r inner = some kids →
      (runTokens r st (s :: (inner.tokens ++ [cl]))).state.map (·.executed) =
          some (st.executed ++ executionsRef r inner ++
            [⟨s.TagName, c.Template, (buildTemplData s).set "children" (.HTML kids)⟩]) ∧
        ((buildTemplData s).set "children" (.HTML kids)) "children" = some (.HTML kids)) ∧
    (∀ (st : State) (s cl : Token) (c : Component),
      Reachable r st → s.tt = .StartTagToken → r.components s.TagName = some c →
      cl.tt = .EndTagToken → cl.TagName = s.TagName →
      (runTokens r st [s, cl]).state.map (·.executed) =
          some (st.executed ++
            [⟨s.TagName, c.Template, (buildTemplData s).set "children" (.HTML "")⟩]) ∧
        ((buildTemplData s).set "children" (.HTML "")) "children" = some (.HTML "")) := by
  refine ⟨?_, ?_, ?_⟩
  · intro st f t c hst hf htt hreg htag
    refine ⟨?_, by simp [TemplData.set]⟩
    rw [stepToken_pop r hf t htt hreg htag, execute_state]
    simp [State.emit, htag]
  · intro st s cl c inner kids hst hs hreg hcl hname hw hk
    refine ⟨?_, by simp [TemplData.set]⟩
    rw [runTokens_pair r (reachable_consistent hst) s cl inner kids hs hreg hcl hname hw hk,
      execute_state]
    simp [State.emit]
  · intro st s cl c hst hs hreg hcl hname
    refine ⟨?_, by simp [TemplData.set]⟩
    have h := runTokens_pair r (reachable_consistent hst) s cl .nil "" hs hreg hcl hname
      trivial rfl
    simp only [Forest.tokens, List.nil_append] at h
    rw [h, execute_state]
    simp [State.emit, executionsRef]

theorem children_capture_witness :
    (runTokens childrenRegistry State.init [testOpen, testClose]).state.map (·.executed) =
        some (State.init.executed ++
          [⟨testOpen.TagName, echoChildren "<div id=\"test-component\">" "</div>",
            (buildTemplData testOpen).set "children" (.HTML "")⟩]) ∧
      ((buildTemplData testOpen).set "children" (.HTML "")) "children" = some (.HTML "") :=
  (children_capture childrenRegistry).2.2 State.init testOpen testClose
    ⟨"test-component", echoChildren "<div id=\"test-component\">" "</div>"⟩
    ⟨[], rfl⟩ rfl rfl rfl rfl
/-! ## Attribute contexts -/

theorem tagAttrLoop_cons (kv : String × String) (rest : List (String × String))
    (m : TemplData) : tagAttrLoop (kv :: rest) m = (kv :: rest).foldl setAttr m := by
  induction rest generalizing kv m with
  | nil => rfl
  | cons kv2 rest ih =>
      rw [tagAttrLoop, ih]
      rfl

theorem readAttrs_eq_foldl (t : Token) : readAttrs t = t.Attr.foldl setAttr TemplData.empty := by
  unfold readAttrs
  cases h : t.Attr with
  | nil => rfl
  | cons kv rest => simp [tagAttrLoop_cons]

theorem foldl_setAttr_isSome (l : List (String × String)) (m : TemplData) (k : String) :
    ((l.foldl setAttr m) k).isSome ↔ (m k).isSome ∨ k ∈ l.map Prod.fst := by
  induction l generalizing m with
  | nil => simp
  | cons kv rest ih =>
      rw [List.foldl_cons, ih]
      by_cases hk : k = kv.1
      · simp [setAttr, TemplData.set, hk]
      · simp [setAttr, TemplData.set, hk]

theorem foldl_setAttr_not_mem (l : List (String × String)) (m : TemplData) (k : String)
    (h : k ∉ l.map Prod.fst) : (l.foldl setAttr m) k = m k := by
  induction l generalizing m with
  | nil => rfl
  | cons kv rest ih =>
      simp only [List.map_cons, List.mem_cons, not_or] at h
      rw [List.foldl_cons, ih _ h.2]
      simp [setAttr, TemplData.set, h.1]

theorem foldl_setAttr_last (pre post : List (String × String)) (m : TemplData)
    (k v : String) (h : k ∉ post.map Prod.fst) :
    ((pre ++ (k, v) :: post).foldl setAttr m) k = some (.HTMLAttr v) := by
  rw [List.foldl_append, List.foldl_cons, foldl_setAttr_not_mem _ _ _ h]
  simp [setAttr, TemplData.set]

theorem readAttrs_isSome (t : Token) (k : String) :
    (readAttrs t k).isSome ↔ k ∈ t.Attr.map Prod.fst := by
  rw [readAttrs_eq_foldl, foldl_setAttr_isSome]
  simp [TemplData.empty]

theorem readAttrs_last (t : Token) (pre post : List (String × String)) (k v : String)
    (ht : t.Attr = pre ++ (k, v) :: post) (h : k ∉ post.map Prod.fst) :
    readAttrs t k = some (.HTMLAttr v) := by
  rw [readAttrs_eq_foldl, ht, foldl_setAttr_last _ _ _ _ _ h]

theorem stepToken_start_state (r : Registry) (st : State) (t : Token)
    (htt : t.tt = .StartTagToken) {c : Component} (hreg : r.components t.TagName = some c) :
    (stepToken r st t).state.map (·.componentsToClose) =
      some (st.componentsToClose ++ [⟨t.TagName, buildTemplData t, ""⟩]) := by
  rw [stepToken_start r st t htt hreg]
  rfl

theorem stepToken_self_executed (r : Registry) {st : State} (hc : st.Consistent) (t : Token)
    (htt : t.tt = .SelfClosingTagToken) {c : Component}
    (hreg : r.components t.TagName = some c) :
    (stepToken r st t).state.map (·.executed) =
      some (st.executed ++ [⟨t.TagName, c.Template, buildTemplData t⟩]) := by
  rw [stepToken_self r hc t htt hreg, execute_state]
  rfl

/-- C5 (attribute spreading): the context built for a component tag binds
`"attributes"` to a nested mapping whose key set is exactly the set of attribute
names of the tag and which binds each name to the value of its last occurrence,
unchanged; the nested mapping has no `"attributes"` or `"children"` entry unless
the tag has an attribute of that name.  This context is the one a registered
self-closing tag executes its template with and the one a registered start tag
stores in the frame it pushes. -/
theorem attribute_spreading (t : Token) :
    buildTemplData t "attributes" = some (.Map (readAttrs t)) ∧
    (∀ k : String, (readAttrs t k).isSome ↔ k ∈ t.Attr.map Prod.fst) ∧
    (∀ (pre post : List (String × String)) (k v : String),
      t.Attr = pre ++ (k, v) :: post → k ∉ post.map Prod.fst →
      readAttrs t k = some (.HTMLAttr v)) ∧
    ("attributes" ∉ t.Attr.map Prod.fst → readAttrs t "attributes" = none) ∧
    ("children" ∉ t.Attr.map Prod.fst → readAttrs t "children" = none) ∧
    (∀ (r : Registry) (st : State) (c : Component), Reachable r st →
      t.tt = .SelfClosingTagToken → r.components t.TagName = some c →
      (stepToken r st t).state.map (·.executed) =
        some (st.executed ++ [⟨t.TagName, c.Template, buildTemplData t⟩])) ∧
    (∀ (r : Registry) (st : State) (c : Component), Reachable r st →
      t.tt = .StartTagToken → r.components t.TagName = some c →
      (stepToken r st t).state.map (·.componentsToClose) =
        some (st.componentsToClose ++ [⟨t.TagName, buildTemplData t, ""⟩])) := by
  have hnone : ∀ k : String, k ∉ t.Attr.map Prod.fst → readAttrs t k = none := by
    intro k hk
    have := (readAttrs_isSome t k).not.mpr hk
    simpa using this
  refine ⟨by simp [buildTemplData, TemplData.set], readAttrs_isSome t,
    fun pre post k v ht h => readAttrs_last t pre post k v ht h, hnone _, hnone _, ?_, ?_⟩
  · intro r st c hst htt hreg
    exact stepToken_self_executed r (reachable_consistent hst) t htt hreg
  · intro r st c _ htt hreg
    exact stepToken_start_state r st t htt hreg

theorem attribute_spreading_witness :
    readAttrs repeatedOpen "class" = some (.HTMLAttr "b") :=
  (attribute_spreading repeatedOpen).2.2.1 [("class", "a"), ("data-cy", "test")] []
    "class" "b" rfl (by decide)
/-! ## Top-level attribute access -/

theorem buildTemplData_of_ne (t : Token) (k : String) (hne : k ≠ "attributes") :
    buildTemplData t k = readAttrs t k := by
  simp [buildTemplData, TemplData.set, hne]

theorem buildTemplData_attributes (t : Token) :
    buildTemplData t "attributes" = some (.Map (readAttrs t)) := by
  simp [buildTemplData, TemplData.set]

/-- C6 (top-level attribute access, amended): for every component tag and every
attribute name `k` on it other than `"attributes"`, the context built for the
tag binds the top-level key `k` to the value of the attribute (of its last
occurrence), the same value the nested `"attributes"` mapping binds to `k`; this
is the context a registered self-closing tag executes its template with.  For a
paired tag the context at the pop is this context with `"children"` set, so the
same holds there for every `k` other than `"attributes"` and `"children"`. -/
theorem topLevel_attribute_access (t : Token) (k : String)
    (hk : k ∈ t.Attr.map Prod.fst) (hne : k ≠ "attributes") :
    buildTemplData t "attributes" = some (.Map (readAttrs t)) ∧
    buildTemplData t k = readAttrs t k ∧
    (buildTemplData t k).isSome ∧
    (∀ (pre post : List (String × String)) (v : String),
      t.Attr = pre ++ (k, v) :: post → k ∉ post.map Prod.fst →
      buildTemplData t k = some (.HTMLAttr v)) ∧
    (∀ (r : Registry) (st : State) (c : Component), Reachable r st →
      t.tt = .SelfClosingTagToken → r.components t.TagName = some c →
      (stepToken r st t).state.map (·.executed) =
        some (st.executed ++ [⟨t.TagName, c.Template, buildTemplData t⟩])) ∧
    (k ≠ "children" →
      (∀ kids : String,
        ((buildTemplData t).set "children" (.HTML kids)) "attributes" =
            some (.Map (readAttrs t)) ∧
          ((buildTemplData t).set "children" (.HTML kids)) k = readAttrs t k) ∧
      (∀ (r : Registry) (st : State) (cl : Token) (c : Component) (inner : Forest)
        (kids : String), Reachable r st → t.tt = .StartTagToken →
        r.components t.TagName = some c → cl.tt = .EndTagToken → cl.TagName = t.TagName →
        inner.WellNested r → expandRef r inner = some kids →
        (runTokens r st (t :: (inner.tokens ++ [cl]))).state.map (·.executed) =
          some (st.executed ++ executionsRef r inner ++
            [⟨t.TagName, c.Template, (buildTemplData t).set "children" (.HTML kids)⟩]))) := by
  refine ⟨buildTemplData_attributes t, buildTemplData_of_ne t k hne, ?_, ?_, ?_, ?_⟩
  · rw [buildTemplData_of_ne t k hne]
    exact (readAttrs_isSome t k).mpr hk
  · intro pre post v ht h
    rw [buildTemplData_of_ne t k hne]
    exact readAttrs_last t pre post k v ht h
  · intro r st c hst htt hreg
    exact stepToken_self_executed r (reachable_consistent hst) t htt hreg
  · intro hch
    refine ⟨fun kids => ⟨?_, ?_⟩, ?_⟩
    · simp [TemplData.set, buildTemplData]
    · simp [TemplData.set, hch, buildTemplData, hne]
    · intro r st cl c inner kids hst hs hreg hcl hname hw hx
      rw [runTokens_pair r (reachable_consistent hst) t cl inner kids hs hreg hcl hname hw hx,
        execute_state]
      simp [State.emit]

theorem topLevel_attribute_access_witness :
    buildTemplData messageSelf "message" = some (.HTMLAttr "a test") :=
  (topLevel_attribute_access messageSelf "message" (by decide) (by decide)).2.2.2.1
    [] [] "a test" rfl (by decide)

/-- C6 (as stated) fails for an attribute named `"attributes"`, whose top-level
key is bound to the nested mapping and not to the value of the attribute, and at
the pop of a paired tag for an attribute named `"children"`, whose top-level key
is bound to the captured content. -/
theorem topLevel_attribute_access_counterexample :
    ("attributes" ∈ attributesSelf.Attr.map Prod.fst ∧
      readAttrs attributesSelf "attributes" = some (.HTMLAttr "x") ∧
      buildTemplData attributesSelf "attributes" = some (.Map (readAttrs attributesSelf)) ∧
      buildTemplData attributesSelf "attributes" ≠ some (.HTMLAttr "x") ∧
      Convert (echoRegistry "attributes") [attributesSelf] .ioEOF =
        some ("<p>", some (.join3 ErrTemplateExecution
          (.errorsNew "tagname: test-component") (.errorsNew "missing attribute")))) ∧
    ("children" ∈ childrenOpen.Attr.map Prod.fst ∧
      readAttrs childrenOpen "children" = some (.HTMLAttr "x") ∧
      ((buildTemplData childrenOpen).set "children" (.HTML "")) "children" =
        some (.HTML "") ∧
      Convert (echoRegistry "children") [childrenOpen, testClose] .ioEOF =
        some ("<p>", some (.join3 ErrTemplateExecution
          (.errorsNew "tagname: test-component") (.errorsNew "missing attribute")))) := by
  refine ⟨⟨by decide, rfl, rfl, ?_, by decide⟩, by decide, rfl, rfl, by decide⟩
  simp [buildTemplData, TemplData.set]

/-! ## Self-closing tags and the children key -/

/-- C7 (no children for self-closing tags, amended): the context a registered
self-closing tag executes its template with has a `"children"` key exactly when
the tag itself has an attribute named `"children"`, and then the key is bound to
the value of that attribute; with no such attribute the key is absent. -/
theorem selfClosing_children (t : Token) :
    ((buildTemplData t "children").isSome ↔ "children" ∈ t.Attr.map Prod.fst) ∧
    ("children" ∉ t.Attr.map Prod.fst → buildTemplData t "children" = none) ∧
    (∀ (pre post : List (String × String)) (v : String),
      t.Attr = pre ++ ("children", v) :: post → "children" ∉ post.map Prod.fst →
      buildTemplData t "children" = some (.HTMLAttr v)) ∧
    (∀ (r : Registry) (st : State) (c : Component), Reachable r st →
      t.tt = .SelfClosingTagToken → r.components t.TagName = some c →
      (stepToken r st t).state.map (·.executed) =
        some (st.executed ++ [⟨t.TagName, c.Template, buildTemplData t⟩])) := by
  have hne : "children" ≠ "attributes" := by decide
  have hiff : (buildTemplData t "children").isSome ↔ "children" ∈ t.Attr.map Prod.fst := by
    rw [buildTemplData_of_ne t _ hne]
    exact readAttrs_isSome t _
  refine ⟨hiff, ?_, ?_, ?_⟩
  · intro h
    have := hiff.not.mpr h
    simpa using this
  · intro pre post v ht h
    rw [buildTemplData_of_ne t _ hne]
    exact readAttrs_last t pre post _ v ht h
  · intro r st c hst htt hreg
    exact stepToken_self_executed r (reachable_consistent hst) t htt hreg

theorem selfClosing_children_witness : buildTemplData messageSelf "children" = none :=
  (selfClosing_children messageSelf).2.1 (by decide)

/-- C7 (as stated) fails for a self-closing tag that has an attribute named
`"children"`: the context binds `"children"` to its value, and a template
echoing that key renders it. -/
theorem selfClosing_children_counterexample :
    buildTemplData childrenSelf "children" = some (.HTMLAttr "x") ∧
      Convert (echoRegistry "children") [childrenSelf] .ioEOF = some ("<p>x</p>", none) :=
  ⟨rfl, by decide⟩
/-! ## Fatal conditions -/

theorem convertRun_fail (r : Registry) {p : List Token} {st st1 : State} {t : Token}
    {err : GoError} (hp : runTokens r State.init p = .next st)
    (ht : stepToken r st t = .fail st1 err) (rest : List Token) (e : GoError) :
    ConvertRun r (p ++ t :: rest) e = .returned st1 (some err) := by
  unfold ConvertRun
  rw [runTokens_append, hp]
  simp only [runTokens, ht]
  rfl

/-- C8 (mismatched close): when a frame is open and an end tag arrives whose
name is registered but differs from the tag of the innermost frame, `Convert`
stops at that token, whatever follows it, and returns the non-nil error
"mismatched end tag" with the root buffer as it stood before the token; the state
it returns with, its log of template executions included, is the state before
the token.  In particular for distinct registered `c` and `d`, the tokens of
`<c><d></c>` give that error. -/
theorem mismatched_close (r : Registry) :
    (∀ (p : List Token) (st : State) (f : componentTag) (t : Token) (rest : List Token)
      (e : GoError), runTokens r State.init p = .next st →
      st.componentsToClose.getLast? = some f → t.tt = .EndTagToken →
      (r.components t.TagName).isSome → f.tag ≠ t.TagName →
      ConvertRun r (p ++ t :: rest) e =
          .returned st (some (.errorsNew "mismatched end tag")) ∧
        Convert r (p ++ t :: rest) e =
          some (st.buf, some (.errorsNew "mismatched end tag")) ∧
        executions r (p ++ t :: rest) e = st.executed) ∧
    (∀ (cOpen dOpen cClose : Token) (c d : Component) (rest : List Token) (e : GoError),
      cOpen.tt = .StartTagToken → r.components cOpen.TagName = some c →
      dOpen.tt = .StartTagToken → r.components dOpen.TagName = some d →
      dOpen.TagName ≠ cOpen.TagName →
      cClose.tt = .EndTagToken → cClose.TagName = cOpen.TagName →
      Convert r (cOpen :: dOpen :: cClose :: rest) e =
          some ("", some (.errorsNew "mismatched end tag")) ∧
        executions r (cOpen :: dOpen :: cClose :: rest) e = []) := by
  have gen : ∀ (p : List Token) (st : State) (f : componentTag) (t : Token)
      (rest : List Token) (e : GoError), runTokens r State.init p = .next st →
      st.componentsToClose.getLast? = some f → t.tt = .EndTagToken →
      (r.components t.TagName).isSome → f.tag ≠ t.TagName →
      ConvertRun r (p ++ t :: rest) e =
        .returned st (some (.errorsNew "mismatched end tag")) := by
    intro p st f t rest e hp hf htt hreg hne
    obtain ⟨cs, hcs⟩ := getLast?_eq_some_concat hf
    obtain ⟨c, hc⟩ := Option.isSome_iff_exists.mp hreg
    exact convertRun_fail r hp (stepToken_end_mismatch r st t htt hc hcs hne) rest e
  constructor
  · intro p st f t rest e hp hf htt hreg hne
    have h := gen p st f t rest e hp hf htt hreg hne
    exact ⟨h, by simp [Convert, h], by simp [executions, h]⟩
  · intro cOpen dOpen cClose c d rest e hco hrc hdo hrd hne hcc hname
    have hp : runTokens r State.init [cOpen, dOpen] =
        .next ⟨"", [⟨cOpen.TagName, buildTemplData cOpen, ""⟩,
          ⟨dOpen.TagName, buildTemplData dOpen, ""⟩], .frame 1, []⟩ := by
      simp [runTokens, stepToken_start r _ _ hco hrc, stepToken_start r _ _ hdo hrd,
        State.init]
    have h := gen [cOpen, dOpen] _ ⟨dOpen.TagName, buildTemplData dOpen, ""⟩ cClose rest e hp
      rfl hcc (by simp [hname, hrc]) (by simpa [hname] using hne)
    simp only [List.cons_append, List.nil_append] at h
    exact ⟨by simp [Convert, h], by simp [executions, h]⟩

theorem mismatched_close_witness :
    Convert nestedRegistry [testOpen, nestedOpen, testClose] .ioEOF =
        some ("", some (.errorsNew "mismatched end tag")) ∧
      executions nestedRegistry [testOpen, nestedOpen, testClose] .ioEOF = [] :=
  (mismatched_close nestedRegistry).2 testOpen nestedOpen testClose
    ⟨"test-component", echoChildren "<div id=\"test-component\">" "</div>"⟩
    ⟨"nested-component", echoChildren "<div id=\"nested-component\">" "</div>"⟩
    [] .ioEOF rfl rfl rfl rfl (by decide) rfl rfl
theorem errorsIs_self (err : GoError) : errorsIs err err = true := by
  cases err <;> simp [errorsIs]

theorem emit_buf {st : State} (hc : st.Consistent) (w : String) (ex : List Execution) :
    (st.emit w ex).buf = if st.componentsToClose.isEmpty then st.buf ++ w else st.buf := by
  rcases List.eq_nil_or_concat st.componentsToClose with hl | ⟨cs, f, hl⟩
  · simp [State.emit, write_of_nil hc hl, hl]
  · rw [List.concat_eq_append] at hl
    simp [State.emit, write_of_concat hc hl, hl]

theorem execute_fail (st : State) (n : String) (tmpl : Template) (data : TemplData)
    {w : String} {cause : GoError} (h : tmpl.Execute data = (w, some cause)) :
    st.execute n tmpl data =
      .fail (st.emit w [⟨n, tmpl, data⟩])
        (.join3 ErrTemplateExecution (.errorsNew ("tagname: " ++ n)) cause) := by
  simp [State.execute, h]

/-- C9 (template execution failure): when the execution of the template of a
component fails, for a self-closing tag or at the pop of a paired tag, `Convert`
stops at that token, so that its result does not depend on the tokens and the
terminal error that follow, and returns the join of `ErrTemplateExecution`, the
error naming the tag and the underlying cause.  The output is the root buffer at
that moment: the root buffer as it stood before the token, extended by what the
template wrote when the root buffer is the active one. -/
theorem template_execution_failure (r : Registry) :
    (∀ (p : List Token) (st : State) (t : Token) (c : Component) (w : String)
      (cause : GoError) (rest : List Token) (e : GoError),
      runTokens r State.init p = .next st → t.tt = .SelfClosingTagToken →
      r.components t.TagName = some c →
      c.Template.Execute (buildTemplData t) = (w, some cause) →
      Convert r (p ++ t :: rest) e =
        some (if st.componentsToClose.isEmpty then st.buf ++ w else st.buf,
          some (.join3 ErrTemplateExecution (.errorsNew ("tagname: " ++ t.TagName)) cause))) ∧
    (∀ (p : List Token) (st : State) (f : componentTag) (t : Token) (c : Component)
      (w : String) (cause : GoError) (rest : List Token) (e : GoError),
      runTokens r State.init p = .next st → st.componentsToClose.getLast? = some f →
      t.tt = .EndTagToken → r.components t.TagName = some c → f.tag = t.TagName →
      c.Template.Execute (f.attrs.set "children" (.HTML f.content)) = (w, some cause) →
      Convert r (p ++ t :: rest) e =
        some (if st.componentsToClose.dropLast.isEmpty then st.buf ++ w else st.buf,
          some (.join3 ErrTemplateExecution (.errorsNew ("tagname: " ++ t.TagName)) cause))) ∧
    (∀ (n : String) (cause : GoError),
      errorsIs (.join3 ErrTemplateExecution (.errorsNew ("tagname: " ++ n)) cause)
          ErrTemplateExecution = true ∧
        errorsIs (.join3 ErrTemplateExecution (.errorsNew ("tagname: " ++ n)) cause)
          cause = true) := by
  refine ⟨?_, ?_, ?_⟩
  · intro p st t c w cause rest e hp htt hreg hx
    have hc : st.Consistent := reachable_consistent ⟨p, hp⟩
    have hstep := stepToken_self r hc t htt hreg
    rw [execute_fail st _ _ _ hx] at hstep
    simp [Convert, convertRun_fail r hp hstep rest e, emit_buf hc]
  · intro p st f t c w cause rest e hp hf htt hreg htag hx
    have hstep := stepToken_pop r hf t htt hreg htag
    rw [execute_fail _ _ _ _ hx] at hstep
    have hc : State.Consistent
        { st with
          componentsToClose := st.componentsToClose.dropLast
          currentBuffer := activeRef st.componentsToClose.dropLast } := rfl
    simp [Convert, convertRun_fail r hp hstep rest e, emit_buf hc]
  · intro n cause
    constructor
    · simp [errorsIs, ErrTemplateExecution]
    · simp [errorsIs, errorsIs_self]

theorem template_execution_failure_witness :
    Convert failingRegistry ([helloText] ++ testSelf :: spanHello) (.errorsNew "unused") =
      some ("hello<div>",
        some (.join3 ErrTemplateExecution (.errorsNew "tagname: test-component")
          (.errorsNew "execution failed"))) :=
  (template_execution_failure failingRegistry).1 [helloText] (State.write State.init "hello")
    testSelf ⟨"test-component", failingTemplate "<div>"⟩ "<div>" (.errorsNew "execution failed")
    spanHello (.errorsNew "unused") rfl rfl rfl rfl

/-! ## End of input and tokenizer errors -/

theorem stepToken_ne_nilTemplate (r : Registry) (st : State) (t : Token) :
    stepToken r st t ≠ .nilTemplate := by
  have hex : ∀ (s : State) (n : String) (tmpl : Template) (d : TemplData),
      Step.recompute (s.execute n tmpl d) ≠ .nilTemplate := by
    intro s n tmpl d
    unfold State.execute
    cases (tmpl.Execute d).2 <;> simp [Step.recompute]
  unfold stepToken
  cases htt : t.tt <;> simp only []
  · simp [Step.recompute]
  · cases r.components t.TagName <;> simp [Step.recompute]
  · cases hl : st.componentsToClose.getLast? with
    | none => simp [Step.recompute]
    | some f =>
        cases hr : r.components t.TagName with
        | none => simp [Step.recompute]
        | some c =>
            by_cases htag : f.tag = t.TagName
            · simp only [htag, ne_eq, not_true_eq_false, if_false, hr]
              exact hex _ _ _ _
            · simp [htag, Step.recompute]
  · cases r.components t.TagName with
    | none => simp [Step.recompute]
    | some c => exact hex _ _ _ _
  · simp [Step.recompute]
  · simp [Step.recompute]

theorem runTokens_ne_nilTemplate (r : Registry) (toks : List Token) :
    ∀ st : State, runTokens r st toks ≠ .nilTemplate := by
  induction toks with
  | nil => intro st; simp [runTokens]
  | cons t ts ih =>
      intro st
      simp only [runTokens]
      cases h : stepToken r st t with
      | next s1 => exact ih s1
      | fail s1 err => simp
      | nilTemplate => exact absurd h (stepToken_ne_nilTemplate r st t)

/-- C10 (end of input versus tokenizer error): after a token prefix processed
without a fatal condition, `Convert` returns the root buffer with a nil error
when the terminal error is end-of-input, and the same root buffer with the
terminal error itself when it is not; every call returns an output and an error
value, and the error is nil exactly when all tokens were processed without a
fatal condition and the terminal error is end-of-input. -/
theorem end_of_input (r : Registry) :
    (∀ (p : List Token) (st : State) (e : GoError), runTokens r State.init p = .next st →
      (errorsIs e .ioEOF = true → Convert r p e = some (st.buf, none)) ∧
        (errorsIs e .ioEOF = false → Convert r p e = some (st.buf, some e))) ∧
    (∀ (toks : List Token) (e : GoError), ∃ out err, Convert r toks e = some (out, err)) ∧
    (∀ (toks : List Token) (e : GoError),
      (∃ out, Convert r toks e = some (out, none)) ↔
        ((∃ st, runTokens r State.init toks = .next st) ∧ errorsIs e .ioEOF = true)) := by
  refine ⟨?_, ?_, ?_⟩
  · intro p st e hp
    constructor <;> intro he <;> simp [Convert, ConvertRun, hp, atErrorToken, he]
  · intro toks e
    unfold Convert ConvertRun
    cases h : runTokens r State.init toks with
    | next st =>
        cases he : errorsIs e .ioEOF
        · exact ⟨st.buf, some e, by simp [atErrorToken, he]⟩
        · exact ⟨st.buf, none, by simp [atErrorToken, he]⟩
    | fail st err => exact ⟨st.buf, some err, by simp [atErrorToken]⟩
    | nilTemplate => exact absurd h (runTokens_ne_nilTemplate r toks _)
  · intro toks e
    unfold Convert ConvertRun
    cases h : runTokens r State.init toks with
    | next st =>
        cases he : errorsIs e .ioEOF <;> simp [atErrorToken, he]
    | fail st err => simp [atErrorToken]
    | nilTemplate => simp [atErrorToken]

theorem end_of_input_witness :
    Convert nestedRegistry [testOpen, helloText] .ioEOF = some ("", none) ∧
      Convert nestedRegistry [testOpen, helloText] (.errorsNew "read failed") =
        some ("", some (.errorsNew "read failed")) :=
  ⟨((end_of_input nestedRegistry).1 [testOpen, helloText]
      ⟨"", [⟨"test-component", buildTemplData testOpen, "hello"⟩], .frame 0, []⟩
      .ioEOF rfl).1 (by decide),
    ((end_of_input nestedRegistry).1 [testOpen, helloText]
      ⟨"", [⟨"test-component", buildTemplData testOpen, "hello"⟩], .frame 0, []⟩
      (.errorsNew "read failed") rfl).2 (by decide)⟩
/-! ## Effect of one iteration on stack and buffers -/

theorem appendLast_concat (l : List String) (b w : String) :
    appendLast (l ++ [b]) w = l ++ [b ++ w] := by
  induction l with
  | nil => rfl
  | cons a l ih =>
      cases l with
      | nil => rfl
      | cons a2 l2 =>
          simp only [List.cons_append] at ih ⊢
          rw [appendLast, ih]

theorem buffers_emit {st : State} (hc : st.Consistent) (w : String) (ex : List Execution) :
    buffers (st.emit w ex) = appendLast (buffers st) w := by
  rcases List.eq_nil_or_concat st.componentsToClose with hl | ⟨cs, f, hl⟩
  · simp [State.emit, write_of_nil hc hl, buffers, hl, appendLast]
  · rw [List.concat_eq_append] at hl
    have h1 : buffers (st.emit w ex) =
        (st.buf :: cs.map (·.content)) ++ [f.content ++ w] := by
      simp [State.emit, write_of_concat hc hl, buffers]
    have h2 : buffers st = (st.buf :: cs.map (·.content)) ++ [f.content] := by
      simp [buffers, hl]
    rw [h1, h2, appendLast_concat]

theorem frameKeys_writeAt (p : String) (i : Nat) (cs : List componentTag) :
    (writeAt p i cs).map (fun f => (f.tag, f.attrs)) = cs.map (fun f => (f.tag, f.attrs)) := by
  induction cs generalizing i with
  | nil => simp [writeAt]
  | cons c cs ih => cases i <;> simp [writeAt, ih]

theorem frameKeys_emit (st : State) (w : String) (ex : List Execution) :
    frameKeys (st.emit w ex) = frameKeys st := by
  obtain ⟨buf, cs, cur, ex0⟩ := st
  cases cur <;> simp [State.emit, State.write, frameKeys, frameKeys_writeAt]

theorem frameTags_eq_keys (st : State) : frameTags st = (frameKeys st).map Prod.fst := by
  simp [frameTags, frameKeys]

theorem frameTags_emit (st : State) (w : String) (ex : List Execution) :
    frameTags (st.emit w ex) = frameTags st := by
  rw [frameTags_eq_keys, frameTags_eq_keys, frameKeys_emit]

theorem popped_consistent (st : State) : st.popped.Consistent := rfl

theorem frameKeys_popped (st : State) : frameKeys st.popped = (frameKeys st).dropLast := by
  simp [frameKeys, State.popped, List.map_dropLast]

theorem buffers_popped {st : State} (h : st.componentsToClose ≠ []) :
    buffers st.popped = (buffers st).dropLast := by
  rcases List.eq_nil_or_concat st.componentsToClose with hl | ⟨cs, f, hl⟩
  · exact absurd hl h
  · rw [List.concat_eq_append] at hl
    have h2 : buffers st = (st.buf :: cs.map (·.content)) ++ [f.content] := by
      simp [buffers, hl]
    rw [h2, List.dropLast_concat]
    simp [buffers, State.popped, hl]

theorem isPop_top {r : Registry} {st : State} {t : Token} (h : isPop r st t) :
    ∃ f c, st.componentsToClose.getLast? = some f ∧ f.tag = t.TagName ∧
      r.components t.TagName = some c ∧ t.tt = .EndTagToken := by
  obtain ⟨htt, hreg, htop⟩ := h
  obtain ⟨c, hc⟩ := Option.isSome_iff_exists.mp hreg
  cases hl : st.componentsToClose.getLast? with
  | none => simp [hl] at htop
  | some f =>
      simp only [hl, Option.map_some', Option.some.injEq] at htop
      exact ⟨f, c, rfl, htop, hc, htt⟩

theorem not_isPush_and_isPop (r : Registry) (st : State) (t : Token) :
    ¬ (isPush r t ∧ isPop r st t) := by
  rintro ⟨⟨h1, _⟩, ⟨h2, _⟩⟩
  rw [h1] at h2
  exact absurd h2 (by decide)

/-- The three ways one iteration acts on a state at the loop head: a write into
the active buffer, the push of a frame, or the pop of the innermost frame
followed by a write into the buffer active after the pop. -/
theorem stepToken_cases (r : Registry) {st : State} (hc : st.Consistent) (t : Token) :
    (¬ isPush r t ∧ ¬ isPop r st t ∧
      ∃ w ex, (stepToken r st t).state = some (st.emit w ex)) ∨
    (isPush r t ∧ stepToken r st t =
      .next { st with
        componentsToClose := st.componentsToClose ++ [⟨t.TagName, buildTemplData t, ""⟩]
        currentBuffer := .frame st.componentsToClose.length }) ∨
    (isPop r st t ∧ ∃ w ex, (stepToken r st t).state = some (st.popped.emit w ex)) := by
  have hraw : ∀ w : String, stepToken r st t = .next (st.write w) →
      ∃ w ex, (stepToken r st t).state = some (st.emit w ex) := by
    intro w h
    exact ⟨w, [], by rw [h, emit_write]; rfl⟩
  by_cases hplain : (t.tt = .TextToken ∨ t.tt = .CommentToken ∨ t.tt = .DoctypeToken) ∨
      r.components t.TagName = none
  · refine Or.inl ⟨?_, ?_, hraw _ (stepToken_raw r hc t hplain)⟩
    · rintro ⟨h1, h2⟩
      rcases hplain with (h | h | h) | h
      · rw [h1] at h; exact absurd h (by decide)
      · rw [h1] at h; exact absurd h (by decide)
      · rw [h1] at h; exact absurd h (by decide)
      · simp [h] at h2
    · rintro ⟨h1, h2, _⟩
      rcases hplain with (h | h | h) | h
      · rw [h1] at h; exact absurd h (by decide)
      · rw [h1] at h; exact absurd h (by decide)
      · rw [h1] at h; exact absurd h (by decide)
      · simp [h] at h2
  · simp only [not_or] at hplain
    obtain ⟨⟨h1, h2, h3⟩, hreg⟩ := hplain
    obtain ⟨c, hc1⟩ := Option.ne_none_iff_exists'.mp hreg
    cases htt : t.tt with
    | TextToken => exact absurd htt h1
    | CommentToken => exact absurd htt h2
    | DoctypeToken => exact absurd htt h3
    | StartTagToken =>
        exact Or.inr (Or.inl ⟨⟨htt, by simp [hc1]⟩, stepToken_start r st t htt hc1⟩)
    | SelfClosingTagToken =>
        have hs := execute_state st t.TagName c.Template (buildTemplData t)
        rw [← stepToken_self r hc t htt hc1] at hs
        exact Or.inl ⟨fun h => by rw [h.1] at htt; exact absurd htt (by decide),
          fun h => by rw [h.1] at htt; exact absurd htt (by decide), _, _, hs⟩
    | EndTagToken =>
        have hnp : ¬ isPush r t := fun h => by rw [h.1] at htt; exact absurd htt (by decide)
        cases hl : st.componentsToClose.getLast? with
        | none =>
            have hnil : st.componentsToClose = [] := List.getLast?_eq_none_iff.mp hl
            exact Or.inl ⟨hnp, fun h => by simp [isPop, hl] at h,
              hraw _ (stepToken_end_nil r hc t htt hnil)⟩
        | some f =>
            obtain ⟨cs, hcs⟩ := getLast?_eq_some_concat hl
            by_cases htag : f.tag = t.TagName
            · have hs := execute_state st.popped t.TagName c.Template
                (f.attrs.set "children" (.HTML f.content))
              have hp : stepToken r st t = st.popped.execute t.TagName c.Template
                  (f.attrs.set "children" (.HTML f.content)) :=
                stepToken_pop r hl t htt hc1 htag
              rw [← hp] at hs
              exact Or.inr (Or.inr ⟨⟨htt, by simp [hc1], by simp [hl, htag]⟩, _, _, hs⟩)
            · refine Or.inl ⟨hnp, fun h => by simp [isPop, hl, htag] at h, "", [], ?_⟩
              rw [stepToken_end_mismatch r st t htt hc1 hcs htag, emit_nil]
              rfl
/-! ## Transparent tokens -/

/-- C11 (unknown tags are transparent): in every reachable state, whether or not
a frame is open, a text, comment or doctype token and a start, end or
self-closing tag with an unregistered name is processed without failure by
appending exactly its raw bytes to the active buffer; all other buffers, the
frames on the stack (tag names and attribute contexts), the buffer pointer and
the log of template executions are unchanged. -/
theorem unknown_transparent (r : Registry) (st : State) (t : Token) (hst : Reachable r st)
    (ht : (t.tt = .TextToken ∨ t.tt = .CommentToken ∨ t.tt = .DoctypeToken) ∨
      r.components t.TagName = none) :
    stepToken r st t = .next (st.write t.Raw) ∧
      buffers (st.write t.Raw) = appendLast (buffers st) t.Raw ∧
      activeContent (st.write t.Raw) = activeContent st ++ t.Raw ∧
      frameKeys (st.write t.Raw) = frameKeys st ∧
      (st.write t.Raw).currentBuffer = st.currentBuffer ∧
      (st.write t.Raw).executed = st.executed := by
  have hc := reachable_consistent hst
  refine ⟨stepToken_raw r hc t ht, ?_, ?_, ?_, write_currentBuffer _ _, write_executed _ _⟩
  · rw [← emit_write, buffers_emit hc]
  · rw [← emit_write, activeContent_emit hc]
  · rw [← emit_write, frameKeys_emit]

theorem unknown_transparent_witness :
    stepToken nestedRegistry
        ⟨"", [⟨"test-component", buildTemplData testOpen, ""⟩], .frame 0, []⟩ spanClose =
        .next (State.write
          ⟨"", [⟨"test-component", buildTemplData testOpen, ""⟩], .frame 0, []⟩ "</span>") ∧
      buffers (State.write
          ⟨"", [⟨"test-component", buildTemplData testOpen, ""⟩], .frame 0, []⟩ "</span>") =
        ["", "</span>"] :=
  have h := unknown_transparent nestedRegistry
    ⟨"", [⟨"test-component", buildTemplData testOpen, ""⟩], .frame 0, []⟩ spanClose
    ⟨[testOpen], rfl⟩ (Or.inr rfl)
  ⟨h.1, h.2.1⟩

/-- C12 (stray close with empty stack): when no frame is open, an end tag,
registered or not, is written raw to the root buffer; the stack stays empty, no
template is executed and the loop continues without error.  Hence `Convert` on
a single end tag followed by end-of-input returns its raw bytes and a nil error. -/
theorem stray_close (r : Registry) :
    (∀ (st : State) (t : Token), Reachable r st → t.tt = .EndTagToken →
      st.componentsToClose = [] →
      stepToken r st t = .next { st with buf := st.buf ++ t.Raw }) ∧
    (∀ (t : Token) (e : GoError), t.tt = .EndTagToken → errorsIs e .ioEOF = true →
      Convert r [t] e = some (t.Raw, none) ∧ executions r [t] e = []) := by
  have step : ∀ (st : State) (t : Token), Reachable r st → t.tt = .EndTagToken →
      st.componentsToClose = [] →
      stepToken r st t = .next { st with buf := st.buf ++ t.Raw } := by
    intro st t hst htt hs
    have hc := reachable_consistent hst
    rw [stepToken_end_nil r hc t htt hs, write_of_nil hc hs]
  refine ⟨step, ?_⟩
  intro t e htt he
  have h := step State.init t ⟨[], rfl⟩ htt rfl
  constructor
  · unfold Convert ConvertRun
    rw [runTokens_singleton, h]
    simp [atErrorToken, he, State.init]
  · unfold executions ConvertRun
    rw [runTokens_singleton, h]
    simp [atErrorToken, he, State.init]

theorem stray_close_witness :
    Convert nestedRegistry [testClose] .ioEOF = some ("</test-component>", none) ∧
      executions nestedRegistry [testClose] .ioEOF = [] :=
  (stray_close nestedRegistry).2 testClose .ioEOF rfl (by decide)
/-! ## Registry -/

theorem convert_singleton_self (r : Registry) (t : Token) (c : Component) (e : GoError)
    (htt : t.tt = .SelfClosingTagToken) (hreg : r.components t.TagName = some c)
    (he : errorsIs e .ioEOF = true) :
    Convert r [t] e =
      some ((c.Template.Execute (buildTemplData t)).1,
        (c.Template.Execute (buildTemplData t)).2.map
          (GoError.join3 ErrTemplateExecution (.errorsNew ("tagname: " ++ t.TagName)))) := by
  unfold Convert ConvertRun
  rw [runTokens_singleton, stepToken_self r init_consistent t htt hreg]
  unfold State.execute
  cases h : (c.Template.Execute (buildTemplData t)).2 with
  | none => simp [atErrorToken, he, State.emit, State.init, State.write]
  | some cause => simp [atErrorToken, State.emit, State.init, State.write]

theorem add_add_of_ne (r : Registry) (c1 c2 : Component) (h : c1.Name ≠ c2.Name) :
    (r.Add c1).Add c2 = (r.Add c2).Add c1 := by
  simp only [Registry.Add, Registry.mk.injEq]
  funext n
  by_cases h1 : n = c1.Name
  · have h2 : n ≠ c2.Name := fun h2 => h (h1.symm.trans h2)
    simp [h1, h]
  · simp [h1]

/-- C13 (registry add): after `Add c` the lookup of `c.Name` yields `c` and the
lookup of every other name is unchanged; a later registration under the same
name replaces the earlier one, so that `Convert` expands a tag of that name with
the template registered last; and the registry built by a sequence of `Add`s
with distinct names does not depend on their order. -/
theorem registry_add (r : Registry) :
    (∀ c : Component, (r.Add c).components c.Name = some c) ∧
    (∀ (c : Component) (n : String), n ≠ c.Name →
      (r.Add c).components n = r.components n) ∧
    (∀ c1 c2 : Component, c1.Name = c2.Name → (r.Add c1).Add c2 = r.Add c2) ∧
    (∀ (c1 c2 : Component) (t : Token) (e : GoError), c1.Name = c2.Name →
      t.tt = .SelfClosingTagToken → t.TagName = c2.Name → errorsIs e .ioEOF = true →
      Convert ((r.Add c1).Add c2) [t] e =
        some ((c2.Template.Execute (buildTemplData t)).1,
          (c2.Template.Execute (buildTemplData t)).2.map
            (GoError.join3 ErrTemplateExecution (.errorsNew ("tagname: " ++ t.TagName))))) ∧
    (∀ cs1 cs2 : List Component, (cs1.map (·.Name)).Nodup → cs1.Perm cs2 →
      cs1.foldl Registry.Add r = cs2.foldl Registry.Add r) := by
  refine ⟨?_, ?_, ?_, ?_, ?_⟩
  · intro c
    simp [Registry.Add]
  · intro c n h
    simp [Registry.Add, h]
  · intro c1 c2 h
    simp only [Registry.Add, Registry.mk.injEq]
    funext n
    by_cases h1 : n = c2.Name
    · simp [h1]
    · simp [h1, h]
  · intro c1 c2 t e _ htt hname he
    exact convert_singleton_self _ t c2 e htt (by simp [Registry.Add, hname]) he
  · intro cs1 cs2 hnd hp
    refine hp.foldl_eq' ?_ r
    intro x hx y hy z
    by_cases hxy : x.Name = y.Name
    · have : x = y := List.inj_on_of_nodup_map hnd hx hy hxy
      rw [this]
    · exact add_add_of_ne z x y hxy

theorem registry_add_witness :
    Convert (simpleRegistry.Add laterComponent) [testSelf] .ioEOF =
      some ("<p>later</p>", none) :=
  (registry_add New).2.2.2.1
    ⟨"test-component", staticTemplate "<div id=\"test-component\"><span>a test</span></div>"⟩
    laterComponent testSelf .ioEOF rfl rfl rfl (by decide)
/-! ## Stack discipline -/

/-- The state an iteration ends in, classified by the three ways of
`stepToken_cases`. -/
theorem stepToken_state_cases (r : Registry) {st st1 : State} (hc : st.Consistent)
    (t : Token) (h : (stepToken r st t).state = some st1) :
    (isPush r t ∧ ¬ isPop r st t ∧
      st1 = { st with
        componentsToClose := st.componentsToClose ++ [⟨t.TagName, buildTemplData t, ""⟩]
        currentBuffer := .frame st.componentsToClose.length }) ∨
    (isPop r st t ∧ ¬ isPush r t ∧ ∃ w ex, st1 = st.popped.emit w ex) ∨
    (¬ isPush r t ∧ ¬ isPop r st t ∧ ∃ w ex, st1 = st.emit w ex) := by
  rcases stepToken_cases r hc t with ⟨h1, h2, w, ex, hs⟩ | ⟨h1, hs⟩ | ⟨h1, w, ex, hs⟩
  · rw [hs, Option.some.injEq] at h
    exact Or.inr (Or.inr ⟨h1, h2, w, ex, h.symm⟩)
  · rw [hs] at h
    simp only [Step.state, Option.some.injEq] at h
    exact Or.inl ⟨h1, fun h2 => not_isPush_and_isPop r st t ⟨h1, h2⟩, h.symm⟩
  · rw [hs, Option.some.injEq] at h
    exact Or.inr (Or.inl ⟨h1, fun h2 => not_isPush_and_isPop r st t ⟨h2, h1⟩, w, ex, h.symm⟩)

theorem isPop_ne_nil {r : Registry} {st : State} {t : Token} (h : isPop r st t) :
    st.componentsToClose ≠ [] := by
  obtain ⟨f, _, hf, _⟩ := isPop_top h
  intro hnil
  simp [hnil] at hf

theorem popped_length {st : State} (h : st.componentsToClose ≠ []) :
    st.popped.componentsToClose.length + 1 = st.componentsToClose.length := by
  have := List.length_pos.mpr h
  simp only [State.popped, List.length_dropLast]
  omega

theorem frameTags_popped (st : State) : frameTags st.popped = (frameTags st).dropLast := by
  rw [frameTags_eq_keys, frameTags_eq_keys, frameKeys_popped, List.map_dropLast]

/-- Change of the stack depth in one iteration that continues. -/
theorem stepToken_depth (r : Registry) {st st1 : State} (hc : st.Consistent) (t : Token)
    (h : stepToken r st t = .next st1) :
    st1.componentsToClose.length + (if isPop r st t then 1 else 0) =
      st.componentsToClose.length + (if isPush r t then 1 else 0) := by
  have hs : (stepToken r st t).state = some st1 := by rw [h]; rfl
  rcases stepToken_state_cases r hc t hs with ⟨h1, h2, rfl⟩ | ⟨h1, h2, w, ex, rfl⟩ |
      ⟨h1, h2, w, ex, rfl⟩
  · simp [h1, h2]
  · simp only [h1, h2, if_true, if_false, emit_stack_length, popped_length (isPop_ne_nil h1)]
    rfl
  · simp [h1, h2, emit_stack_length]

theorem runTokens_depth (r : Registry) (p : List Token) :
    ∀ (st st1 : State), st.Consistent → runTokens r st p = .next st1 →
      st1.componentsToClose.length + popCount r st p =
        st.componentsToClose.length + pushCount r p := by
  induction p with
  | nil =>
      intro st st1 _ h
      simp only [runTokens, Step.next.injEq] at h
      subst h
      simp [popCount, pushCount]
  | cons t ts ih =>
      intro st st1 hc h
      simp only [runTokens] at h
      cases hs : stepToken r st t with
      | next s1 =>
          rw [hs] at h
          have h1 := ih s1 st1 (stepToken_consistent r st s1 t hs) h
          have h2 := stepToken_depth r hc t hs
          have h3 : pushCount r (t :: ts) = pushCount r ts + (if isPush r t then 1 else 0) := by
            simp [pushCount, List.countP_cons]
          have h4 : popCount r st (t :: ts) =
              (if isPop r st t then 1 else 0) + popCount r s1 ts := by
            simp [popCount, hs]
          omega
      | fail s1 err => rw [hs] at h; simp at h
      | nilTemplate => rw [hs] at h; simp at h

/-- C14 (stack discipline): in a reachable state a token processed without error
changes the stack in exactly one of three ways: a start tag with a registered
name pushes one frame (its tag name, the attribute context built from the tag,
an empty buffer) on top; an end tag with a registered name equal to the tag of
the innermost frame removes exactly that frame; every other token leaves the
sequence of tag names of the frames unchanged.  Hence the depth is the number of
registered start tags seen minus the number of frames popped. -/
theorem stack_discipline (r : Registry) :
    (∀ (st st1 : State) (t : Token), Reachable r st → stepToken r st t = .next st1 →
      (isPush r t ∧ ¬ isPop r st t ∧
        st1.componentsToClose =
          st.componentsToClose ++ [⟨t.TagName, buildTemplData t, ""⟩]) ∨
      (isPop r st t ∧ ¬ isPush r t ∧ frameTags st1 = (frameTags st).dropLast ∧
        st1.componentsToClose.length + 1 = st.componentsToClose.length) ∨
      (¬ isPush r t ∧ ¬ isPop r st t ∧ frameTags st1 = frameTags st)) ∧
    (∀ (p : List Token) (st : State), runTokens r State.init p = .next st →
      st.componentsToClose.length + popCount r State.init p = pushCount r p ∧
        st.componentsToClose.length = pushCount r p - popCount r State.init p) := by
  constructor
  · intro st st1 t hst h
    have hc := reachable_consistent hst
    have hs : (stepToken r st t).state = some st1 := by rw [h]; rfl
    rcases stepToken_state_cases r hc t hs with ⟨h1, h2, rfl⟩ | ⟨h1, h2, w, ex, rfl⟩ |
        ⟨h1, h2, w, ex, rfl⟩
    · exact Or.inl ⟨h1, h2, rfl⟩
    · refine Or.inr (Or.inl ⟨h1, h2, ?_, ?_⟩)
      · rw [frameTags_emit, frameTags_popped]
      · rw [emit_stack_length, popped_length (isPop_ne_nil h1)]
    · exact Or.inr (Or.inr ⟨h1, h2, frameTags_emit _ _ _⟩)
  · intro p st h
    have h1 := runTokens_depth r p _ _ init_consistent h
    have h0 : State.init.componentsToClose.length = 0 := rfl
    rw [h0, Nat.zero_add] at h1
    exact ⟨h1, by omega⟩

theorem stack_discipline_witness :
    1 + popCount nestedRegistry State.init [testOpen, nestedOpen, helloText, nestedClose] =
      pushCount nestedRegistry [testOpen, nestedOpen, helloText, nestedClose] :=
  ((stack_discipline nestedRegistry).2 [testOpen, nestedOpen, helloText, nestedClose]
    ⟨"", [⟨"test-component", buildTemplData testOpen, "<div id=\"nested-component\">hello</div>"⟩],
      .frame 0,
      [⟨"nested-component", echoChildren "<div id=\"nested-component\">" "</div>",
        (buildTemplData nestedOpen).set "children" (.HTML "hello")⟩]⟩ rfl).1
/-! ## Active buffer -/

/-- C15 (active buffer): at the start of processing a token `currentBuffer`
points at the buffer of the innermost frame when a frame is open and at the root
buffer otherwise.  The token appends to at most one buffer and leaves the
contents of all others unchanged: a push adds an empty buffer and writes
nothing; a pop removes the buffer of the popped frame and appends to the buffer
that is innermost after the pop; every other token appends to the innermost
buffer.  When the loop continues the pointer is again at the active buffer. -/
theorem active_buffer (r : Registry) (st st1 : State) (t : Token) (hst : Reachable r st)
    (h : (stepToken r st t).state = some st1) :
    st.currentBuffer = activeRef st.componentsToClose ∧
    ((isPush r t ∧ buffers st1 = buffers st ++ [""]) ∨
      (isPop r st t ∧ ∃ w, buffers st1 = appendLast (buffers st).dropLast w) ∨
      (¬ isPush r t ∧ ¬ isPop r st t ∧ ∃ w, buffers st1 = appendLast (buffers st) w)) ∧
    (stepToken r st t = .next st1 → st1.currentBuffer = activeRef st1.componentsToClose) := by
  have hc := reachable_consistent hst
  refine ⟨hc, ?_, fun hn => stepToken_consistent r st st1 t hn⟩
  rcases stepToken_state_cases r hc t h with ⟨h1, _, rfl⟩ | ⟨h1, _, w, ex, rfl⟩ |
      ⟨h1, h2, w, ex, rfl⟩
  · exact Or.inl ⟨h1, by simp [buffers]⟩
  · refine Or.inr (Or.inl ⟨h1, w, ?_⟩)
    rw [buffers_emit (popped_consistent st), buffers_popped (isPop_ne_nil h1)]
  · exact Or.inr (Or.inr ⟨h1, h2, w, buffers_emit hc w ex⟩)

theorem active_buffer_witness :
    BufferRef.frame 1 =
        activeRef [⟨"test-component", buildTemplData testOpen, ""⟩,
          ⟨"nested-component", buildTemplData nestedOpen, "hello"⟩] ∧
    ((isPush nestedRegistry nestedClose ∧
        ["", "<div id=\"nested-component\">hello</div>"] = ["", "", "hello"] ++ [""]) ∨
      (isPop nestedRegistry
          ⟨"", [⟨"test-component", buildTemplData testOpen, ""⟩,
            ⟨"nested-component", buildTemplData nestedOpen, "hello"⟩], .frame 1, []⟩
          nestedClose ∧
        ∃ w, ["", "<div id=\"nested-component\">hello</div>"] =
          appendLast ["", "", "hello"].dropLast w) ∨
      (¬ isPush nestedRegistry nestedClose ∧
        ¬ isPop nestedRegistry
          ⟨"", [⟨"test-component", buildTemplData testOpen, ""⟩,
            ⟨"nested-component", buildTemplData nestedOpen, "hello"⟩], .frame 1, []⟩
          nestedClose ∧
        ∃ w, ["", "<div id=\"nested-component\">hello</div>"] =
          appendLast ["", "", "hello"] w)) :=
  have h := active_buffer nestedRegistry
    ⟨"", [⟨"test-component", buildTemplData testOpen, ""⟩,
      ⟨"nested-component", buildTemplData nestedOpen, "hello"⟩], .frame 1, []⟩
    ⟨"", [⟨"test-component", buildTemplData testOpen, "<div id=\"nested-component\">hello</div>"⟩],
      .frame 0,
      [⟨"nested-component", echoChildren "<div id=\"nested-component\">" "</div>",
        (buildTemplData nestedOpen).set "children" (.HTML "hello")⟩]⟩
    nestedClose ⟨[testOpen, nestedOpen, helloText], rfl⟩ rfl
  ⟨h.1, h.2.1⟩
/-! ## Attribute contexts of open frames -/

theorem frameKeys_length (st : State) :
    (frameKeys st).length = st.componentsToClose.length := by
  simp [frameKeys]

theorem take_dropLast_of_lt {α : Type} (l : List α) (n : Nat) (h : n < l.length - 1) :
    l.dropLast.take (n + 1) = l.take (n + 1) := by
  rw [List.dropLast_eq_take, List.take_take]
  congr 1
  omega

/-- The frames at depth at most `n` keep their tag and attribute context in an
iteration before and after which more than `n` frames are open. -/
theorem stepToken_keys_take (r : Registry) {st st1 : State} (hc : st.Consistent)
    (t : Token) (n : Nat) (h : stepToken r st t = .next st1)
    (h0 : n < st.componentsToClose.length) (h1 : n < st1.componentsToClose.length) :
    (frameKeys st1).take (n + 1) = (frameKeys st).take (n + 1) := by
  have hs : (stepToken r st t).state = some st1 := by rw [h]; rfl
  rcases stepToken_state_cases r hc t hs with ⟨_, _, rfl⟩ | ⟨hp, _, w, ex, rfl⟩ |
      ⟨_, _, w, ex, rfl⟩
  · have : frameKeys
        { st with
          componentsToClose := st.componentsToClose ++ [⟨t.TagName, buildTemplData t, ""⟩]
          currentBuffer := .frame st.componentsToClose.length } =
        frameKeys st ++ [(t.TagName, buildTemplData t)] := by
      simp [frameKeys]
    rw [this, List.take_append_of_le_length (by rw [frameKeys_length]; omega)]
  · rw [frameKeys_emit, frameKeys_popped]
    rw [emit_stack_length] at h1
    have h2 := popped_length (isPop_ne_nil hp)
    exact take_dropLast_of_lt _ n (by rw [frameKeys_length]; omega)
  · rw [frameKeys_emit]

theorem runTokens_keys_take (r : Registry) (n : Nat) (p : List Token) :
    ∀ (st st2 : State), st.Consistent → n < st.componentsToClose.length →
      staysAbove r n st p = true → runTokens r st p = .next st2 →
      (frameKeys st2).take (n + 1) = (frameKeys st).take (n + 1) ∧
        n < st2.componentsToClose.length := by
  induction p with
  | nil =>
      intro st st2 _ h0 _ h
      simp only [runTokens, Step.next.injEq] at h
      subst h
      exact ⟨rfl, h0⟩
  | cons t ts ih =>
      intro st st2 hc h0 hab h
      simp only [runTokens] at h
      simp only [staysAbove] at hab
      cases hs : stepToken r st t with
      | next s1 =>
          rw [hs] at h hab
          simp only [Bool.and_eq_true, decide_eq_true_eq] at hab
          obtain ⟨h1, hab1⟩ := hab
          obtain ⟨h2, h3⟩ := ih s1 st2 (stepToken_consistent r st s1 t hs) h1 hab1 h
          exact ⟨h2.trans (stepToken_keys_take r hc t n hs h0 h1), h3⟩
      | fail s1 err => rw [hs] at h; simp at h
      | nilTemplate => rw [hs] at h; simp at h

/-- The change of the tags and attribute contexts of the open frames. -/
theorem stepToken_keys (r : Registry) {st st1 : State} (hc : st.Consistent) (t : Token)
    (h : (stepToken r st t).state = some st1) :
    (isPush r t ∧ frameKeys st1 = frameKeys st ++ [(t.TagName, buildTemplData t)]) ∨
    (isPop r st t ∧ frameKeys st1 = (frameKeys st).dropLast) ∨
    (¬ isPush r t ∧ ¬ isPop r st t ∧ frameKeys st1 = frameKeys st) := by
  rcases stepToken_state_cases r hc t h with ⟨h1, _, rfl⟩ | ⟨h1, _, w, ex, rfl⟩ |
      ⟨h1, h2, w, ex, rfl⟩
  · exact Or.inl ⟨h1, by simp [frameKeys]⟩
  · exact Or.inr (Or.inl ⟨h1, by rw [frameKeys_emit, frameKeys_popped]⟩)
  · exact Or.inr (Or.inr ⟨h1, h2, frameKeys_emit _ _ _⟩)

/-- The frame pushed by the start tag `s` is the innermost one after further
tokens during which it stayed open, once the depth is back to its own. -/
theorem pushed_frame_top (r : Registry) {st0 st2 : State} (s : Token)
    (p : List Token) (hs : isPush r s)
    (hab : staysAbove r st0.componentsToClose.length st0 (s :: p) = true)
    (hrun : runTokens r st0 (s :: p) = .next st2)
    (hlen : st2.componentsToClose.length = st0.componentsToClose.length + 1) :
    ∃ f, st2.componentsToClose.getLast? = some f ∧ f.tag = s.TagName ∧
      f.attrs = buildTemplData s := by
  obtain ⟨c, hreg⟩ := Option.isSome_iff_exists.mp hs.2
  have hstep := stepToken_start r st0 s hs.1 hreg
  simp only [runTokens, hstep] at hrun
  simp only [staysAbove, hstep, Bool.and_eq_true, decide_eq_true_eq] at hab
  obtain ⟨h1, hab1⟩ := hab
  have hcA : State.Consistent
      { st0 with
        componentsToClose := st0.componentsToClose ++ [⟨s.TagName, buildTemplData s, ""⟩]
        currentBuffer := .frame st0.componentsToClose.length } := by
    simp [State.Consistent, activeRef_concat]
  obtain ⟨hk, _⟩ := runTokens_keys_take r _ p _ st2 hcA h1 hab1 hrun
  have hk2 : frameKeys st2 = frameKeys st0 ++ [(s.TagName, buildTemplData s)] := by
    rw [List.take_of_length_le (by rw [frameKeys_length]; omega),
      List.take_of_length_le (by rw [frameKeys_length]; simp)] at hk
    rw [hk]
    simp [frameKeys]
  have hl : (frameKeys st2).getLast? = some (s.TagName, buildTemplData s) := by
    rw [hk2, List.getLast?_concat]
  unfold frameKeys at hl
  rw [List.getLast?_map] at hl
  cases hf : st2.componentsToClose.getLast? with
  | none => simp [hf] at hl
  | some f =>
      simp only [hf, Option.map_some', Option.some.injEq, Prod.mk.injEq] at hl
      exact ⟨f, rfl, hl.1, hl.2⟩

/-- C16 (attribute context fixed at creation, amended): a token changes the
sequence of tags and attribute contexts of the open frames only by appending the
frame it pushes or by removing the frame it pops, so that every frame that
remains has the same tag and attribute entries before and after; over any run
during which more than `n` frames stay open the frames up to depth `n` keep them;
and when the frame pushed by a start tag is popped, whatever tokens were
processed while it stayed open, the template receives the context captured from
that start tag with the top-level key `"children"` set to the buffer of the
frame: the nested `"attributes"` mapping and every top-level entry other than
`"children"` are exactly those captured. -/
theorem frame_context_fixed (r : Registry) :
    (∀ (st st1 : State) (t : Token), Reachable r st →
      (stepToken r st t).state = some st1 →
      (isPush r t ∧ frameKeys st1 = frameKeys st ++ [(t.TagName, buildTemplData t)]) ∨
      (isPop r st t ∧ frameKeys st1 = (frameKeys st).dropLast) ∨
      (¬ isPush r t ∧ ¬ isPop r st t ∧ frameKeys st1 = frameKeys st)) ∧
    (∀ (n : Nat) (st st2 : State) (p : List Token), Reachable r st →
      n < st.componentsToClose.length → staysAbove r n st p = true →
      runTokens r st p = .next st2 →
      (frameKeys st2).take (n + 1) = (frameKeys st).take (n + 1)) ∧
    (∀ (st0 st2 : State) (s t : Token) (p : List Token) (c : Component),
      Reachable r st0 → isPush r s →
      staysAbove r st0.componentsToClose.length st0 (s :: p) = true →
      runTokens r st0 (s :: p) = .next st2 →
      st2.componentsToClose.length = st0.componentsToClose.length + 1 →
      t.tt = .EndTagToken → t.TagName = s.TagName → r.components t.TagName = some c →
      ∃ f, st2.componentsToClose.getLast? = some f ∧ f.tag = s.TagName ∧
        f.attrs = buildTemplData s ∧
        (stepToken r st2 t).state.map (·.executed) =
          some (st2.executed ++
            [⟨t.TagName, c.Template,
              (buildTemplData s).set "children" (.HTML f.content)⟩]) ∧
        (∀ k : String, k ≠ "children" →
          ((buildTemplData s).set "children" (.HTML f.content)) k = buildTemplData s k) ∧
        ((buildTemplData s).set "children" (.HTML f.content)) "attributes" =
          some (.Map (readAttrs s)) ∧
        ((buildTemplData s).set "children" (.HTML f.content)) "children" =
          some (.HTML f.content)) := by
  refine ⟨?_, ?_, ?_⟩
  · intro st st1 t hst h
    exact stepToken_keys r (reachable_consistent hst) t h
  · intro n st st2 p hst h0 hab hrun
    exact (runTokens_keys_take r n p st st2 (reachable_consistent hst) h0 hab hrun).1
  · intro st0 st2 s t p c hst hs hab hrun hlen htt hname hreg
    obtain ⟨f, hf, htag, hattrs⟩ :=
      pushed_frame_top r s p hs hab hrun hlen
    refine ⟨f, hf, htag, hattrs, ?_, ?_, ?_, ?_⟩
    · rw [stepToken_pop r hf t htt hreg (htag.trans hname.symm), execute_state, ← hattrs]
      rfl
    · intro k hk
      simp [TemplData.set, hk]
    · simp [TemplData.set, buildTemplData]
    · simp [TemplData.set]

theorem frame_context_fixed_witness :
    ∃ f, [componentTag.mk "test-component" (buildTemplData repeatedOpen)
          "<span>hello</span>"].getLast? = some f ∧
      f.tag = repeatedOpen.TagName ∧ f.attrs = buildTemplData repeatedOpen ∧
      (stepToken childrenRegistry
          ⟨"", [⟨"test-component", buildTemplData repeatedOpen, "<span>hello</span>"⟩],
            .frame 0, []⟩ testClose).state.map (·.executed) =
        some ([] ++
          [⟨testClose.TagName, echoChildren "<div id=\"test-component\">" "</div>",
            (buildTemplData repeatedOpen).set "children" (.HTML f.content)⟩]) ∧
      (∀ k : String, k ≠ "children" →
        ((buildTemplData repeatedOpen).set "children" (.HTML f.content)) k =
          buildTemplData repeatedOpen k) ∧
      ((buildTemplData repeatedOpen).set "children" (.HTML f.content)) "attributes" =
        some (.Map (readAttrs repeatedOpen)) ∧
      ((buildTemplData repeatedOpen).set "children" (.HTML f.content)) "children" =
        some (.HTML f.content) :=
  (frame_context_fixed childrenRegistry).2.2 State.init
    ⟨"", [⟨"test-component", buildTemplData repeatedOpen, "<span>hello</span>"⟩],
      .frame 0, []⟩
    repeatedOpen testClose spanHello
    ⟨"test-component", echoChildren "<div id=\"test-component\">" "</div>"⟩
    ⟨[], rfl⟩ (by decide) (by decide) rfl rfl rfl rfl rfl

/-- C16 (as stated) fails for a paired tag that has an attribute named
`"children"`: for `<test-component children="x">hello</test-component>` the
frame captures the top-level entry `"children"` bound to the attribute value,
the frame is still open with that context when its end tag arrives, and the
context handed to the template at the pop binds `"children"` to the content of
the frame instead. -/
theorem frame_context_fixed_counterexample :
    runTokens childrenRegistry State.init [childrenOpen, helloText] =
        .next ⟨"", [⟨"test-component", buildTemplData childrenOpen, "hello"⟩], .frame 0, []⟩ ∧
      buildTemplData childrenOpen "children" = some (.HTMLAttr "x") ∧
      (stepToken childrenRegistry
          ⟨"", [⟨"test-component", buildTemplData childrenOpen, "hello"⟩], .frame 0, []⟩
          testClose).state.map (·.executed) =
        some [⟨"test-component", echoChildren "<div id=\"test-component\">" "</div>",
          (buildTemplData childrenOpen).set "children" (.HTML "hello")⟩] ∧
      ((buildTemplData childrenOpen).set "children" (.HTML "hello")) "children" =
        some (.HTML "hello") ∧
      ((buildTemplData childrenOpen).set "children" (.HTML "hello")) "children" ≠
        buildTemplData childrenOpen "children" ∧
      Convert childrenRegistry [childrenOpen, helloText, testClose] .ioEOF =
        some ("<div id=\"test-component\">hello</div>", none) := by
  refine ⟨rfl, rfl, rfl, rfl, ?_, by decide⟩
  simp [TemplData.set, buildTemplData, readAttrs, tagAttrLoop, childrenOpen]

/-! ## Unclosed components -/

/-- While a frame is open before and after an iteration, the root buffer is not
written. -/
theorem stepToken_root_unchanged (r : Registry) {st st1 : State} (hc : st.Consistent)
    (t : Token) (h : stepToken r st t = .next st1) (h0 : 0 < st.componentsToClose.length)
    (h1 : 0 < st1.componentsToClose.length) : st1.buf = st.buf := by
  have hs : (stepToken r st t).state = some st1 := by rw [h]; rfl
  rcases stepToken_state_cases r hc t hs with ⟨_, _, rfl⟩ | ⟨hp, _, w, ex, rfl⟩ |
      ⟨_, _, w, ex, rfl⟩
  · rfl
  · rw [emit_stack_length] at h1
    have : st.popped.componentsToClose.isEmpty = false := by
      cases hl : st.popped.componentsToClose with
      | nil => rw [hl] at h1; simp at h1
      | cons a l => rfl
    rw [emit_buf (popped_consistent st), this]
    rfl
  · have : st.componentsToClose.isEmpty = false := by
      cases hl : st.componentsToClose with
      | nil => rw [hl] at h0; simp at h0
      | cons a l => rfl
    rw [emit_buf hc, this]
    rfl

theorem runTokens_root_unchanged (r : Registry) (p : List Token) :
    ∀ (st st2 : State), st.Consistent → 0 < st.componentsToClose.length →
      staysAbove r 0 st p = true → runTokens r st p = .next st2 → st2.buf = st.buf := by
  induction p with
  | nil =>
      intro st st2 _ _ _ h
      simp only [runTokens, Step.next.injEq] at h
      rw [h]
  | cons t ts ih =>
      intro st st2 hc h0 hab h
      simp only [runTokens] at h
      simp only [staysAbove] at hab
      cases hs : stepToken r st t with
      | next s1 =>
          rw [hs] at h hab
          simp only [Bool.and_eq_true, decide_eq_true_eq] at hab
          obtain ⟨h1, hab1⟩ := hab
          rw [ih s1 st2 (stepToken_consistent r st s1 t hs) h1 hab1 h]
          exact stepToken_root_unchanged r hc t hs h0 h1
      | fail s1 err => rw [hs] at h; simp at h
      | nilTemplate => rw [hs] at h; simp at h

theorem staysAbove_append (r : Registry) (n : Nat) (a b : List Token) :
    ∀ (st st1 : State), runTokens r st a = .next st1 →
      staysAbove r n st (a ++ b) = (staysAbove r n st a && staysAbove r n st1 b) := by
  induction a with
  | nil =>
      intro st st1 h
      simp only [runTokens, Step.next.injEq] at h
      subst h
      simp [staysAbove]
  | cons t ts ih =>
      intro st st1 h
      simp only [runTokens] at h
      cases hs : stepToken r st t with
      | next s1 =>
          rw [hs] at h
          have h2 := ih s1 st1 h
          simp only [List.cons_append, staysAbove, hs]
          rw [show ts.append b = ts ++ b from rfl, h2, Bool.and_assoc]
      | fail s1 err => rw [hs] at h; simp at h
      | nilTemplate => rw [hs] at h; simp at h

theorem runTokens_append_next (r : Registry) {st st2 : State} {a b : List Token}
    (h : runTokens r st (a ++ b) = .next st2) :
    ∃ st1, runTokens r st a = .next st1 ∧ runTokens r st1 b = .next st2 := by
  rw [runTokens_append] at h
  cases ha : runTokens r st a with
  | next s1 => rw [ha] at h; exact ⟨s1, rfl, h⟩
  | fail s1 err => rw [ha] at h; simp at h
  | nilTemplate => rw [ha] at h; simp at h

/-- The root buffer after an unclosed outermost start tag and what follows it is
the root buffer before that tag. -/
theorem runTokens_unclosed (r : Registry) {p1 p2 : List Token} {s : Token}
    {st1 st : State} (h1 : runTokens r State.init p1 = .next st1) (hs : isPush r s)
    (hab : staysAbove r 0 st1 (s :: p2) = true)
    (h : runTokens r State.init (p1 ++ s :: p2) = .next st) : st.buf = st1.buf := by
  obtain ⟨c, hreg⟩ := Option.isSome_iff_exists.mp hs.2
  have hstep := stepToken_start r st1 s hs.1 hreg
  rw [runTokens_append, h1] at h
  simp only [runTokens, hstep] at h
  simp only [staysAbove, hstep, Bool.and_eq_true, decide_eq_true_eq] at hab
  have hcA : State.Consistent
      { st1 with
        componentsToClose := st1.componentsToClose ++ [⟨s.TagName, buildTemplData s, ""⟩]
        currentBuffer := .frame st1.componentsToClose.length } := by
    simp [State.Consistent, activeRef_concat]
  have hb := runTokens_root_unchanged r p2
    { st1 with
      componentsToClose := st1.componentsToClose ++ [⟨s.TagName, buildTemplData s, ""⟩]
      currentBuffer := .frame st1.componentsToClose.length } st hcA hab.1 hab.2 h
  exact hb

/-- Every run that ends with a frame open splits at the outermost unclosed
start tag. -/
theorem runTokens_split_unclosed (r : Registry) (p : List Token) :
    ∀ st : State, runTokens r State.init p = .next st → st.componentsToClose ≠ [] →
      ∃ p1 s p2 st1, p = p1 ++ s :: p2 ∧ runTokens r State.init p1 = .next st1 ∧
        st1.componentsToClose = [] ∧ isPush r s ∧ staysAbove r 0 st1 (s :: p2) = true := by
  induction p using List.reverseRecOn with
  | nil =>
      intro st h hne
      simp only [runTokens, Step.next.injEq] at h
      subst h
      exact absurd rfl hne
  | append_singleton q t ih =>
      intro st h hne
      obtain ⟨sq, hq, ht⟩ := runTokens_append_next r h
      rw [runTokens_singleton] at ht
      have hcq : sq.Consistent := runTokens_consistent r q _ _ init_consistent hq
      have hpos : 0 < st.componentsToClose.length := List.length_pos.mpr hne
      by_cases hsq : sq.componentsToClose = []
      · have hs : (stepToken r sq t).state = some st := by rw [ht]; rfl
        have hpush : isPush r t := by
          rcases stepToken_state_cases r hcq t hs with ⟨h1, _, _⟩ | ⟨h1, _, _⟩ |
              ⟨_, _, w, ex, rfl⟩
          · exact h1
          · exact absurd hsq (isPop_ne_nil h1)
          · rw [emit_stack_length, hsq] at hpos
            simp at hpos
        refine ⟨q, t, [], sq, rfl, hq, hsq, hpush, ?_⟩
        simp [staysAbove, ht, hpos]
      · obtain ⟨p1, s, p2, st1, hqe, h1, hnil, hpush, hab⟩ := ih sq hq hsq
        refine ⟨p1, s, p2 ++ [t], st1, by rw [hqe]; simp, h1, hnil, hpush, ?_⟩
        have hrun : runTokens r st1 (s :: p2) = .next sq := by
          rw [hqe, runTokens_append, h1] at hq
          exact hq
        have := staysAbove_append r 0 (s :: p2) [t] st1 sq hrun
        rw [List.cons_append] at this
        rw [this, hab]
        simp [staysAbove, ht, hpos]

/-- C17 (unclosed components are dropped): `Convert` returns the root buffer
only.  When the token stream reaches end-of-input while a frame is open, it
splits at the outermost unclosed registered start tag, and `Convert` returns a
nil error and the root buffer as it stood before that tag, which is what
`Convert` returns for the tokens before the tag alone: neither the tag, nor its
inner content, nor a rendering of it is in the output.  For a registered start
tag `c` between two text tokens the output is the raw bytes of the first. -/
theorem unclosed_dropped (r : Registry) :
    (∀ (p : List Token) (st : State) (e : GoError), runTokens r State.init p = .next st →
      st.componentsToClose ≠ [] → errorsIs e .ioEOF = true →
      ∃ p1 s p2 st1, p = p1 ++ s :: p2 ∧ runTokens r State.init p1 = .next st1 ∧
        st1.componentsToClose = [] ∧ isPush r s ∧ staysAbove r 0 st1 (s :: p2) = true ∧
        Convert r p e = some (st1.buf, none) ∧ Convert r p1 e = some (st1.buf, none)) ∧
    (∀ (p1 p2 : List Token) (s : Token) (st1 st : State) (e : GoError),
      runTokens r State.init p1 = .next st1 → st1.componentsToClose = [] → isPush r s →
      staysAbove r 0 st1 (s :: p2) = true →
      runTokens r State.init (p1 ++ s :: p2) = .next st → errorsIs e .ioEOF = true →
      Convert r (p1 ++ s :: p2) e = some (st1.buf, none)) ∧
    (∀ (a c b : Token) (e : GoError), a.tt = .TextToken → isPush r c → b.tt = .TextToken →
      errorsIs e .ioEOF = true → Convert r [a, c, b] e = some (a.Raw, none)) := by
  have gen : ∀ (p1 p2 : List Token) (s : Token) (st1 st : State) (e : GoError),
      runTokens r State.init p1 = .next st1 → st1.componentsToClose = [] → isPush r s →
      staysAbove r 0 st1 (s :: p2) = true →
      runTokens r State.init (p1 ++ s :: p2) = .next st → errorsIs e .ioEOF = true →
      Convert r (p1 ++ s :: p2) e = some (st1.buf, none) := by
    intro p1 p2 s st1 st e h1 hnil hs hab h he
    have hb := runTokens_unclosed r h1 hs hab h
    simp [Convert, ConvertRun, h, atErrorToken, he, hb]
  refine ⟨?_, gen, ?_⟩
  · intro p st e h hne he
    obtain ⟨p1, s, p2, st1, hp, h1, hnil, hs, hab⟩ := runTokens_split_unclosed r p st h hne
    refine ⟨p1, s, p2, st1, hp, h1, hnil, hs, hab, ?_, ?_⟩
    · rw [hp]
      rw [hp] at h
      exact gen p1 p2 s st1 st e h1 hnil hs hab h he
    · simp [Convert, ConvertRun, h1, atErrorToken, he]
  · intro a c b e ha hc hb he
    obtain ⟨comp, hreg⟩ := Option.isSome_iff_exists.mp hc.2
    have e1 : stepToken r State.init a = .next ⟨a.Raw, [], .root, []⟩ := by
      rw [stepToken_raw r init_consistent a (Or.inl (Or.inl ha))]
      simp [State.init, State.write]
    have e2 : stepToken r ⟨a.Raw, [], .root, []⟩ c =
        .next ⟨a.Raw, [⟨c.TagName, buildTemplData c, ""⟩], .frame 0, []⟩ :=
      stepToken_start r _ c hc.1 hreg
    have hcA : State.Consistent ⟨a.Raw, [⟨c.TagName, buildTemplData c, ""⟩], .frame 0, []⟩ :=
      rfl
    have e3 : stepToken r ⟨a.Raw, [⟨c.TagName, buildTemplData c, ""⟩], .frame 0, []⟩ b =
        .next ⟨a.Raw, [⟨c.TagName, buildTemplData c, "" ++ b.Raw⟩], .frame 0, []⟩ := by
      rw [stepToken_raw r hcA b (Or.inl (Or.inl hb))]
      rfl
    have hrun : runTokens r State.init [a, c, b] =
        .next ⟨a.Raw, [⟨c.TagName, buildTemplData c, "" ++ b.Raw⟩], .frame 0, []⟩ := by
      simp only [runTokens, e1, e2, e3]
    simp [Convert, ConvertRun, hrun, atErrorToken, he]

theorem unclosed_dropped_witness :
    Convert childrenRegistry [aText, testOpen, helloText] .ioEOF = some ("a", none) :=
  (unclosed_dropped childrenRegistry).2.2 aText testOpen helloText .ioEOF rfl (by decide) rfl
    (by decide)
/-! ## Monotonicity of the output -/

theorem emit_buf_extends {st : State} (hc : st.Consistent) (w : String)
    (ex : List Execution) : ∃ w1, (st.emit w ex).buf = st.buf ++ w1 := by
  rw [emit_buf hc]
  cases st.componentsToClose.isEmpty
  · exact ⟨"", by simp [String.append_empty]⟩
  · exact ⟨w, by simp⟩

theorem stepToken_buf_extends (r : Registry) {st st1 : State} (hc : st.Consistent)
    (t : Token) (h : (stepToken r st t).state = some st1) :
    ∃ w, st1.buf = st.buf ++ w := by
  rcases stepToken_state_cases r hc t h with ⟨_, _, rfl⟩ | ⟨_, _, w, ex, rfl⟩ |
      ⟨_, _, w, ex, rfl⟩
  · exact ⟨"", by simp [String.append_empty]⟩
  · exact emit_buf_extends (popped_consistent st) w ex
  · exact emit_buf_extends hc w ex

theorem runTokens_buf_extends (r : Registry) (q : List Token) :
    ∀ (st st2 : State), st.Consistent → (runTokens r st q).state = some st2 →
      ∃ w, st2.buf = st.buf ++ w := by
  induction q with
  | nil =>
      intro st st2 _ h
      simp only [runTokens, Step.state, Option.some.injEq] at h
      exact ⟨"", by rw [← h, String.append_empty]⟩
  | cons t ts ih =>
      intro st st2 hc h
      simp only [runTokens] at h
      cases hs : stepToken r st t with
      | next s1 =>
          rw [hs] at h
          have hs1 : (stepToken r st t).state = some s1 := by rw [hs]; rfl
          obtain ⟨w1, h1⟩ := stepToken_buf_extends r hc t hs1
          obtain ⟨w2, h2⟩ := ih s1 st2 (stepToken_consistent r st s1 t hs) h
          exact ⟨w1 ++ w2, by rw [h2, h1, String.append_assoc]⟩
      | fail s1 err =>
          rw [hs] at h
          simp only [Step.state, Option.some.injEq] at h
          subst h
          exact stepToken_buf_extends r hc t (by rw [hs]; rfl)
      | nilTemplate => rw [hs] at h; simp [Step.state] at h

theorem convert_state (r : Registry) (toks : List Token) (e : GoError) (out : String)
    (err : Option GoError) :
    Convert r toks e = some (out, err) →
      ∃ st, (runTokens r State.init toks).state = some st ∧ st.buf = out := by
  unfold Convert ConvertRun
  cases h : runTokens r State.init toks with
  | next st =>
      intro hc
      refine ⟨st, rfl, ?_⟩
      cases he : errorsIs e .ioEOF <;> simp [atErrorToken, he] at hc <;> exact hc.1
  | fail st err1 =>
      intro hc
      simp only [atErrorToken, Option.some.injEq, Prod.mk.injEq] at hc
      exact ⟨st, rfl, hc.1⟩
  | nilTemplate =>
      intro hc
      simp [atErrorToken] at hc

/-- C18 (prefix-monotone output): every iteration leaves the root buffer as it
was or appends to it, and for all token sequences `p` and `q` the output of
`Convert` on `p` is an initial part of its output on `p` followed by `q`,
whichever terminal errors end the two streams and whether or not a fatal
condition occurs in `p` or in `q`. -/
theorem output_monotone (r : Registry) :
    (∀ (st st1 : State) (t : Token), Reachable r st →
      (stepToken r st t).state = some st1 → ∃ w, st1.buf = st.buf ++ w) ∧
    (∀ (p q : List Token) (e e2 : GoError) (out1 out2 : String) (err1 err2 : Option GoError),
      Convert r p e = some (out1, err1) → Convert r (p ++ q) e2 = some (out2, err2) →
      ∃ w, out2 = out1 ++ w) := by
  constructor
  · intro st st1 t hst h
    exact stepToken_buf_extends r (reachable_consistent hst) t h
  · intro p q e e2 out1 out2 err1 err2 h1 h2
    obtain ⟨s1, hs1, rfl⟩ := convert_state r p e out1 err1 h1
    obtain ⟨s2, hs2, rfl⟩ := convert_state r (p ++ q) e2 out2 err2 h2
    rw [runTokens_append] at hs2
    cases hp : runTokens r State.init p with
    | next st =>
        rw [hp] at hs1 hs2
        simp only [Step.state, Option.some.injEq] at hs1
        subst hs1
        exact runTokens_buf_extends r q _ s2
          (runTokens_consistent r p _ _ init_consistent hp) hs2
    | fail st err =>
        rw [hp] at hs1 hs2
        simp only [Step.state, Option.some.injEq] at hs1 hs2
        subst hs1
        subst hs2
        exact ⟨"", by rw [String.append_empty]⟩
    | nilTemplate => rw [hp] at hs1; simp [Step.state] at hs1

theorem output_monotone_witness :
    Convert nestedRegistry [aText] .ioEOF = some ("a", none) ∧
      Convert nestedRegistry ([aText] ++ spanHello) .ioEOF =
        some ("a<span>hello</span>", none) ∧
      ∃ w, "a<span>hello</span>" = "a" ++ w :=
  ⟨by decide, by decide,
    (output_monotone nestedRegistry).2 [aText] spanHello .ioEOF .ioEOF "a"
      "a<span>hello</span>" none none (by decide) (by decide)⟩

end TemplComponents
